import Mathlib

/-!
Verification of the session/terminal gateway in `src/workspace/app.js`
(AI-IDE). JavaScript strings are modelled as `List Char`; the POSIX
`path` functions used by the server (`isAbsolute`, `resolve`, `relative`,
`join`, `dirname`) are embedded below, together with the server's own
path-jail helpers, command analyzers, session registry operations and
WebSocket handlers.
-/

namespace AIIDE

/-- JavaScript strings (paths, input lines, messages) are modelled as
lists of characters. -/
abbrev Str := List Char

/-- Coerce a Lean string literal into the character-list model. -/
def str (s : String) : Str := s.data

/-- Node `path.isAbsolute` for POSIX paths: the path starts with `/`. -/
def isAbsolute : Str → Bool
  | [] => false
  | c :: _ => c = '/'


/-- Accumulator-based splitting of a path on the separator `/`. -/
def splitSegsAux : Str → Str → List Str
  | [], cur => [cur.reverse]
  | c :: rest, cur =>
    if c = '/' then cur.reverse :: splitSegsAux rest []
    else splitSegsAux rest (c :: cur)

/-- Split a path into its `/`-separated segments (empty segments kept,
as `"/a//b".split('/')` would). -/
def splitSegs (p : Str) : List Str := splitSegsAux p []

/-- One pass of Node's path normalization over a segment list, for a path
taken as absolute: empty segments and `.` disappear, `..` pops the last
kept segment and is dropped at the root.  `acc` holds the kept segments
in reverse order. -/
def normSegsAux : List Str → List Str → List Str
  | acc, [] => acc.reverse
  | acc, seg :: rest =>
    if seg = [] ∨ seg = ['.'] then normSegsAux acc rest
    else if seg = ['.', '.'] then normSegsAux acc.tail rest
    else normSegsAux (seg :: acc) rest

/-- Normalized segment list of a path taken as absolute. -/
def normSegs (p : Str) : List Str := normSegsAux [] (splitSegs p)

/-- Join segments with `/` separators (no leading separator). -/
def joinSegs : List Str → Str
  | [] => []
  | [s] => s
  | s :: rest => s ++ '/' :: joinSegs rest

/-- Build an absolute path from plain segments.  Every workspace root the
server derives with `path.join` from the absolute `WORKSPACE_DIR` has this
shape. -/
def absOfSegs (R : List Str) : Str := '/' :: joinSegs R

/-- Node `path.resolve(base, p)` for an absolute `base`: an absolute `p`
is normalized on its own, a relative one is appended to `base` and the
whole is normalized.  The result always starts with `/` and has no
trailing separator. -/
def resolveAbs (base p : Str) : Str :=
  let segs := if isAbsolute p then splitSegs p else splitSegs base ++ splitSegs p
  '/' :: joinSegs (normSegsAux [] segs)

/-- Drop the longest common prefix of two segment lists, returning the two
remainders. -/
def dropCommon : List Str → List Str → List Str × List Str
  | a :: f, b :: t => if a = b then dropCommon f t else (a :: f, b :: t)
  | f, t => (f, t)

/-- Node POSIX `path.relative(f, t)`: both arguments are resolved, the
common prefix of segments is dropped, and the result climbs with `..`
segments before descending into the target's remaining segments. -/
def relAbs (f t : Str) : Str :=
  let p := dropCommon (normSegs f) (normSegs t)
  joinSegs (p.1.map (fun _ => ['.', '.']) ++ p.2)

/-- Node `path.join(a, b)` for an absolute `a`: concatenation followed by
normalization. -/
def joinPath (a b : Str) : Str :=
  '/' :: joinSegs (normSegsAux [] (splitSegs a ++ splitSegs b))

/-- Node `path.dirname` for the slash-separated relative filenames stored
in the File Store (no trailing or doubled slashes). -/
def dirname (p : Str) : Str :=
  match (splitSegs p).dropLast with
  | [] => str "."
  | segs => joinSegs segs

/-- The `.replace(/\x5c\x5cg, '/')` of the jail helpers: turn every
backslash into a forward slash (a no-op on POSIX resolution results). -/
def backToSlash (s : Str) : Str := s.map (fun c => if c = '\\' then '/' else c)

/-- Resolution step shared by the jail helpers and the cd tracking: an
absolute candidate is used as-is (raw, not normalized), a relative one is
resolved against the current cwd. -/
def candidateAbs (currentCwdAbs argPath : Str) : Str :=
  if isAbsolute argPath then argPath else resolveAbs currentCwdAbs argPath

/-- The path-jail helper `resolvePath` of `analyzeCommandRequirements`
(src/workspace/app.js line 2066): a falsy (empty) argument yields null;
the candidate is resolved, must have the session workspace root as a
string prefix (`abs.startsWith(sessionWorkspaceDir)`), and on success
`path.relative(root, abs)` with backslashes normalized is returned. -/
def resolvePath (sessionWorkspaceDir currentCwdAbs argPath : Str) : Option Str :=
  if argPath = [] then none
  else if sessionWorkspaceDir.isPrefixOf (candidateAbs currentCwdAbs argPath) then
    some (backToSlash (relAbs sessionWorkspaceDir (candidateAbs currentCwdAbs argPath)))
  else none

/-- The path-jail helper `toRel` of `handleInput` (src/workspace/app.js
line 1805): same resolution and string-prefix check as `resolvePath`
(its extra `.replace` of a leading backslash never fires on POSIX). -/
def toRel (sessionWorkspaceDir currentCwdAbs p : Str) : Option Str :=
  if sessionWorkspaceDir.isPrefixOf (candidateAbs currentCwdAbs p) then
    some (backToSlash (relAbs sessionWorkspaceDir (candidateAbs currentCwdAbs p)))
  else none

/-- A candidate path contains a `..` segment. -/
def hasDotDot (p : Str) : Bool := (splitSegs p).contains (['.', '.'] : Str)

/-- The resolved absolute path does not lie at or under the workspace root
directory, segment-wise (the honest notion of escaping the jail). -/
def landsOutside (root abs : Str) : Bool :=
  ¬ (normSegs root).isPrefixOf (normSegs abs)

/-- Whitespace in the sense of JavaScript's `trim` and the token splitter
`split(/\s+/)` (restricted to the ASCII whitespace actually occurring in
terminal input lines). -/
def isWsChar (c : Char) : Bool := c = ' ' ∨ c = '\t' ∨ c = '\n' ∨ c = '\r'

/-- JavaScript `String.prototype.trim`. -/
def trimList (s : Str) : Str :=
  ((s.dropWhile isWsChar).reverse.dropWhile isWsChar).reverse

/-- ASCII lowering, modelling `String.prototype.toLowerCase` on the ASCII
command text the server inspects. -/
def lowerChar (c : Char) : Char := c.toLower

/-- JavaScript `String.prototype.includes(pat)`: some suffix-start position
makes `pat` a prefix. -/
def containsSub (s pat : Str) : Bool :=
  (List.range (s.length + 1)).any (fun i => pat.isPrefixOf (s.drop i))

/-- Accumulator-based splitting on whitespace characters (empty pieces
kept). -/
def splitWsAux : Str → Str → List Str
  | [], cur => [cur.reverse]
  | c :: rest, cur =>
    if isWsChar c then cur.reverse :: splitWsAux rest []
    else splitWsAux rest (c :: cur)

/-- JavaScript `trimmed.split(/\s+/)` as applied by the server: the input
is already trimmed, so splitting on single whitespace characters and
dropping the empty pieces produced by interior runs is equivalent; the
empty string still yields one empty token, as `''.split(/\s+/)` does. -/
def splitWs (s : Str) : List Str :=
  if s = [] then [[]] else (splitWsAux s []).filter (· ≠ [])

/-- JavaScript `parts.join(' ')`. -/
def joinSpaces : List Str → Str
  | [] => []
  | [s] => s
  | s :: rest => s ++ ' ' :: joinSpaces rest

/-- Answer of one per-executable analyzer (the `{ action: ... }` objects
of src/workspace/app.js): execute unchanged, block with a diagnostic, or
redirect (auto `cd`) into a project directory.  `prepare` is the unused
fourth action the dispatcher also handles. -/
inductive Analysis
  | execute
  | block (message : Str)
  | redirect (newCwd : Str) (message : Str)
  | prepare
deriving DecidableEq

/-- Result of `analyzeAndExecuteCommand`: `{ ok: false, message }`,
`{ ok: true, action: 'execute' }` or `{ ok: true, action: 'redirect' }`. -/
inductive ExecResult
  | notOk (message : Str)
  | okExecute
  | okRedirect (newCwd : Str) (message : Str)
deriving DecidableEq

/-- The `fileExists` helper of `analyzeCommandRequirements`:
`(relPath) => relPath && fileSet.has(relPath)` — a null or empty resolved
path is falsy. -/
def fileExistsOpt (dbFiles : List Str) : Option Str → Bool
  | some p => p ≠ [] ∧ dbFiles.contains p
  | none => false

/-- Insertion into a JS `Set` modelled as an insertion-ordered
duplicate-free list. -/
def setInsert (l : List Str) (x : Str) : List Str :=
  if l.contains x then l else l ++ [x]

/-- The project indicator filenames of `detectProjectRoot`
(src/workspace/app.js line 2135). -/
def projectIndicators : List Str :=
  [str "package.json", str "package-lock.json", str "yarn.lock",
   str "pnpm-lock.yaml", str "requirements.txt", str "Pipfile",
   str "pyproject.toml", str "Cargo.toml", str "go.mod", str "pom.xml",
   str "build.gradle", str ".git", str "README.md", str "Makefile"]

/-- Inner loop of `detectProjectRoot` for one indicator: every stored
filename ending in `/indicator` contributes its directory (when not `.`)
to the set of project directories. -/
def indicatorDirs (dbFiles : List Str) (ind : Str) (acc : List Str) : List Str :=
  dbFiles.foldl (fun acc fn =>
    if ('/' :: ind).isSuffixOf fn then
      if dirname fn ≠ str "." then setInsert acc (dirname fn) else acc
    else acc) acc

/-- One step of `detectProjectRoot`'s outer loop, for one indicator: the
root joins the candidate set when the indicator is stored at the top
level, then every directory holding the indicator joins it. -/
def detectStep (dbFiles : List Str) (acc : List Str) (ind : Str) : List Str :=
  indicatorDirs dbFiles ind (if dbFiles.contains ind then setInsert acc [] else acc)

/-- The function `detectProjectRoot` (src/workspace/app.js line 2131):
collect every directory holding a project indicator (the root counts when
an indicator is stored at the top level); when exactly one non-root
directory results, suggest it. -/
def detectProjectRoot (dbFiles : List Str) : Option Str :=
  match projectIndicators.foldl (detectStep dbFiles) [] with
  | [d] => if d ≠ [] then some d else none
  | _ => none

/-- Package-manager sub-commands that skip the `package.json` requirement
(src/workspace/app.js line 2172). -/
def npmNoPackageJsonCommands : List Str :=
  [str "--version", str "-v", str "version", str "--help", str "-h",
   str "help", str "config", str "cache", str "doctor", str "ping",
   str "whoami", str "logout", str "login", str "search", str "view",
   str "info", str "show", str "outdated", str "audit", str "fund"]

/-- Mutation sub-commands that may run without a `package.json`
(src/workspace/app.js line 2198). -/
def npmInstallCommands : List Str :=
  [str "install", str "i", str "add", str "remove", str "uninstall",
   str "init"]

/-- The function `analyzeNodeCommand` (src/workspace/app.js line 2170):
package-manager commands (`npm`/`pnpm`/`yarn`). -/
def analyzeNodeCommand (executable : Str) (args : List Str)
    (root cwd : Str) (dbFiles : List Str) (projectRoot : Option Str) :
    Analysis :=
  if args.length > 0 ∧ npmNoPackageJsonCommands.contains (args.headD []) then
    .execute
  else
    if ¬ fileExistsOpt dbFiles (resolvePath root cwd (str "package.json")) then
      if h : projectRoot.isSome then
        let pr := projectRoot.get h
        if fileExistsOpt dbFiles (some (pr ++ '/' :: str "package.json")) then
          .redirect pr (str "package.json not found in current directory. Switching to "
            ++ pr ++ str "/ where package.json exists.")
        else if npmInstallCommands.contains (args.headD []) then .execute
        else .block (str "package.json not found. " ++ executable
          ++ str " commands require a package.json file.")
      else if npmInstallCommands.contains (args.headD []) then .execute
      else .block (str "package.json not found. " ++ executable
        ++ str " commands require a package.json file.")
    else .execute

/-- Flag arguments of `node` that skip the file-existence check
(src/workspace/app.js line 2216). -/
def nodeNoFileCommands : List Str :=
  [str "--version", str "-v", str "version", str "--help", str "-h",
   str "help", str "--eval", str "-e", str "--print", str "-p"]

/-- The function `analyzeNodeExecution` (src/workspace/app.js line 2214):
`node <file>` — note the check is on `args[0]` literally, not on the first
non-flag argument. -/
def analyzeNodeExecution (args : List Str) (root cwd : Str)
    (dbFiles : List Str) : Analysis :=
  if args.length > 0 ∧ nodeNoFileCommands.contains (args.headD []) then
    .execute
  else if args.length < 1 then .execute
  else
    match resolvePath root cwd (args.headD []) with
    | some scriptPath =>
      if scriptPath ≠ [] ∧ ¬ dbFiles.contains scriptPath then
        .block (str "File not found: " ++ args.headD []
          ++ str ". Make sure the file exists in your workspace.")
      else .execute
    | none => .execute

/-- The function `analyzeNpxCommand` (src/workspace/app.js line 2243). -/
def analyzeNpxCommand (args : List Str) : Analysis :=
  let noPkg := [str "--version", str "-v", str "version", str "--help",
    str "-h", str "help", str "create", str "degit", str "dlx"]
  if args.length > 0 ∧ noPkg.contains (args.headD []) then .execute
  else .execute

/-- Leading-dash test, JavaScript `arg.startsWith('-')`. -/
def startsDash : Str → Bool
  | [] => false
  | c :: _ => c = '-'


/-- The function `analyzePythonCommand` (src/workspace/app.js line 2263):
the first non-flag argument, when it resolves into the workspace and is
not a stored file, blocks the command. -/
def analyzePythonCommand (args : List Str) (root cwd : Str)
    (dbFiles : List Str) : Analysis :=
  if args.length < 1 then .execute
  else
    match args.find? (fun a => ¬ startsDash a) with
    | some scriptArg =>
      match resolvePath root cwd scriptArg with
      | some scriptPath =>
        if scriptPath ≠ [] ∧ ¬ dbFiles.contains scriptPath then
          .block (str "Python script not found: " ++ scriptArg
            ++ str ". Make sure the file exists in your workspace.")
        else .execute
      | none => .execute
    | none => .execute

/-- Scan for `-r`/`--requirement` and the argument following it,
modelling `findIndex` plus `args[reqIndex + 1]`. -/
def pipFindReq : List Str → Option Str
  | a :: b :: rest =>
    if a = str "-r" ∨ a = str "--requirement" then some b
    else pipFindReq (b :: rest)
  | _ => none

/-- The function `analyzePipCommand` (src/workspace/app.js line 2284). -/
def analyzePipCommand (args : List Str) (root cwd : Str)
    (dbFiles : List Str) : Analysis :=
  match pipFindReq args with
  | some reqArg =>
    if reqArg ≠ [] then
      match resolvePath root cwd reqArg with
      | some reqPath =>
        if reqPath ≠ [] ∧ ¬ dbFiles.contains reqPath then
          .block (str "Requirements file not found: " ++ reqArg ++ str ".")
        else .execute
      | none => .execute
    else .execute
  | none => .execute

/-- The function `analyzeGitCommand` (src/workspace/app.js line 2303):
git always executes. -/
def analyzeGitCommand (args : List Str) : Analysis :=
  let noRepo := [str "--version", str "-v", str "version", str "--help",
    str "-h", str "help", str "config", str "init", str "clone"]
  if args.length > 0 ∧ noRepo.contains (args.headD []) then .execute
  else .execute

/-- The function `analyzeGoCommand` (src/workspace/app.js line 2323). -/
def analyzeGoCommand (args : List Str) (root cwd : Str)
    (dbFiles : List Str) : Analysis :=
  if args.headD [] = str "run" ∧ (args.drop 1).headD [] ≠ [] then
    match resolvePath root cwd ((args.drop 1).headD []) with
    | some goFile =>
      if goFile ≠ [] ∧ ¬ dbFiles.contains goFile then
        .block (str "Go file not found: " ++ (args.drop 1).headD [] ++ str ".")
      else .execute
    | none => .execute
  else .execute

/-- The function `analyzeCargoCommand` (src/workspace/app.js line 2340):
every cargo invocation requires `Cargo.toml` in the current directory. -/
def analyzeCargoCommand (root cwd : Str) (dbFiles : List Str) : Analysis :=
  if ¬ fileExistsOpt dbFiles (resolvePath root cwd (str "Cargo.toml")) then
    .block (str "Cargo.toml not found. Cargo commands require a Rust project.")
  else .execute

/-- The function `analyzeJavaCommand` (src/workspace/app.js line 2355). -/
def analyzeJavaCommand (args : List Str) (root cwd : Str)
    (dbFiles : List Str) : Analysis :=
  match args.find? (fun a => (str ".java").isSuffixOf a) with
  | some javaFile =>
    match resolvePath root cwd javaFile with
    | some javaPath =>
      if javaPath ≠ [] ∧ ¬ dbFiles.contains javaPath then
        .block (str "Java file not found: " ++ javaFile ++ str ".")
      else .execute
    | none => .execute
  | none => .execute

/-- Case-insensitive C/C++ source-extension test, the regex of
`analyzeCppCommand`. -/
def isCppSource (a : Str) : Bool :=
  [str ".c", str ".cc", str ".cpp", str ".cxx", str ".h", str ".hpp"].any
    (fun ext => ext.isSuffixOf (a.map lowerChar))

/-- The function `analyzeCppCommand` (src/workspace/app.js line 2373). -/
def analyzeCppCommand (args : List Str) (root cwd : Str)
    (dbFiles : List Str) : Analysis :=
  match args.find? isCppSource with
  | some sourceFile =>
    match resolvePath root cwd sourceFile with
    | some sourcePath =>
      if sourcePath ≠ [] ∧ ¬ dbFiles.contains sourcePath then
        .block (str "Source file not found: " ++ sourceFile ++ str ".")
      else .execute
    | none => .execute
  | none => .execute

/-- The function `analyzeGenericCommand` (src/workspace/app.js line 2391):
every non-flag argument containing a separator must stay inside the
workspace, otherwise the first offender blocks the command. -/
def analyzeGenericCommand (args : List Str) (root cwd : Str) : Analysis :=
  let pathArgs := args.filter
    (fun a => (a.contains '/' ∨ a.contains '\\') ∧ ¬ startsDash a)
  match pathArgs.find? (fun a => (resolvePath root cwd a).isNone) with
  | some a => .block (str "Access denied: Path is outside your workspace: " ++ a)
  | none => .execute

/-- Dispatcher `analyzeCommandRequirements` (src/workspace/app.js line
2061), with the File Store listing passed in as the set of stored
filenames. -/
def analyzeCommandRequirements (executable : Str) (args : List Str)
    (dbFiles : List Str) (root cwd : Str) : Analysis :=
  if executable = str "npm" ∨ executable = str "pnpm" ∨ executable = str "yarn" then
    analyzeNodeCommand executable args root cwd dbFiles (detectProjectRoot dbFiles)
  else if executable = str "node" then
    analyzeNodeExecution args root cwd dbFiles
  else if executable = str "npx" then
    analyzeNpxCommand args
  else if executable = str "python" ∨ executable = str "python3" ∨ executable = str "py" then
    analyzePythonCommand args root cwd dbFiles
  else if executable = str "pip" ∨ executable = str "pip3" then
    analyzePipCommand args root cwd dbFiles
  else if executable = str "git" then
    analyzeGitCommand args
  else if executable = str "go" then
    analyzeGoCommand args root cwd dbFiles
  else if executable = str "cargo" then
    analyzeCargoCommand root cwd dbFiles
  else if executable = str "javac" ∨ executable = str "java" then
    analyzeJavaCommand args root cwd dbFiles
  else if executable = str "gcc" ∨ executable = str "g++" then
    analyzeCppCommand args root cwd dbFiles
  else
    analyzeGenericCommand args root cwd

/-- The pass-through allowlist of `analyzeAndExecuteCommand`
(src/workspace/app.js line 1974). -/
def simpleCommands : List Str :=
  [str "ls", str "dir", str "pwd", str "cd", str "mkdir", str "rmdir",
   str "rm", str "cp", str "mv", str "cat", str "echo", str "clear",
   str "whoami", str "date", str "time", str "ps", str "top", str "kill",
   str "killall", str "jobs", str "bg", str "fg", str "history",
   str "alias", str "which", str "where", str "type", str "help",
   str "man", str "info", str "apropos", str "whatis", str "locate",
   str "find", str "grep", str "awk", str "sed", str "sort", str "uniq",
   str "wc", str "head", str "tail", str "less", str "more", str "touch",
   str "chmod", str "chown", str "ln", str "df", str "du", str "free",
   str "uptime", str "uname", str "env", str "export", str "set",
   str "unset", str "source", str ".", str "exit", str "logout",
   str "su", str "sudo", str "passwd", str "id", str "groups", str "w",
   str "who", str "last", str "finger", str "ping", str "traceroute",
   str "netstat", str "ss", str "lsof", str "curl", str "wget",
   str "ssh", str "scp", str "rsync", str "tar", str "zip", str "unzip",
   str "gzip", str "gunzip", str "bzip2", str "xz", str "7z", str "rar",
   str "unrar", str "mount", str "umount", str "fdisk", str "parted",
   str "mkfs", str "fsck"]

/-- The wrapper `analyzeAndExecuteCommand` (src/workspace/app.js line
1965).  The whole body runs inside a try/catch whose catch branch returns
`{ ok: true, action: 'execute' }`; the one awaited operation that can
throw — the File Store listing — is passed as an `Except`, with `error`
modelling a thrown exception.  `ensureFilesSynced` swallows its own
errors and only touches the disk, so it contributes no observable effect
here. -/
def analyzeAndExecuteCommand (raw : Str) (root cwd : Str)
    (dbFiles : Except Str (List Str)) : ExecResult :=
  let tokens := splitWs (trimList raw)
  match tokens with
  | [] => .okExecute
  | _ =>
    let executable := (tokens.headD []).map lowerChar
    let args := tokens.drop 1
    if simpleCommands.contains executable then .okExecute
    else
      match dbFiles with
      | .error _ => .okExecute
      | .ok files =>
        match analyzeCommandRequirements executable args files root cwd with
        | .block m => .notOk m
        | .redirect d m => .okRedirect d m
        | .execute => .okExecute
        | .prepare => .okExecute

/-- A stored File Record as `handleInit` reads it back: relative filename
plus content, `none` modelling SQL NULL. -/
structure FileRecord where
  filename : Str
  content : Option Str
deriving DecidableEq

/-- The on-disk projection of one session's workspace, addressed by
workspace-relative filename.  Writes prepend; reads take the most recent
write. -/
abbrev Disk := List (Str × Str)

/-- fs.writeFileSync (with mkdirSync of the parents, which has no
observable effect in this file model). -/
def diskWrite (d : Disk) (p c : Str) : Disk := (p, c) :: d

/-- Read a file's bytes from the modelled disk. -/
def diskRead (d : Disk) (p : Str) : Option Str :=
  (d.find? (fun e => e.1 = p)).map (fun e => e.2)

/-- The DB-to-disk sync loop of `handleInit` (src/workspace/app.js line
1517): for each File Record, read its content and write it to the
corresponding path — but only when the content is truthy
(`if (content)`), so SQL NULL and the empty string are both skipped. -/
def hydrate (files : List FileRecord) (d : Disk) : Disk :=
  files.foldl (fun d f =>
    match f.content with
    | some c => if c ≠ [] then diskWrite d f.filename c else d
    | none => d) d

/-- State of one session entry of the `sessions` Map (src/workspace/app.js
line 182): attached transport, PTY handle (process id, `none` before
spawn), readiness flag and the server-side tracked cwd. -/
structure Session where
  wsId : Nat
  ptyId : Option Nat
  ptyReady : Bool
  currentCwd : Str
deriving DecidableEq

/-- Process-wide state: the `sessions` Map (insertion-ordered association
list with unique keys, as a JS Map), the set of spawned-and-unkilled PTY
process ids, and the next fresh process id. -/
structure World where
  registry : List (Str × Session)
  alivePtys : List Nat
  nextPty : Nat
deriving DecidableEq

/-- The empty server state. -/
def emptyWorld : World := { registry := [], alivePtys := [], nextPty := 0 }

/-- JS `Map.get`. -/
def mapGet : List (Str × Session) → Str → Option Session
  | [], _ => none
  | e :: rest, k => if e.1 = k then some e.2 else mapGet rest k

/-- JS `Map.set`: replace in place when the key exists (JS Map keys are
unique), append otherwise. -/
def mapSet : List (Str × Session) → Str → Session → List (Str × Session)
  | [], k, v => [(k, v)]
  | e :: rest, k, v => if e.1 = k then (k, v) :: rest else e :: mapSet rest k v

/-- JS `Map.delete`. -/
def mapDelete (m : List (Str × Session)) (k : Str) : List (Str × Session) :=
  m.filter (fun e => ¬ e.1 = k)

/-- Number of registry entries stored under a session id. -/
def countKey (m : List (Str × Session)) (k : Str) : Nat :=
  (m.filter (fun e => e.1 = k)).length

/-- Outbound transport messages of the protocol
(`ws.send(JSON.stringify(...))`).  `session_restored` is the
acknowledgement the specification's protocol table promises for
reconnects; it is listed here so its absence from every handler's output
is expressible. -/
inductive OutMsg
  | output (data : Str)
  | errorMsg (message : Str)
  | ptyReady (sessionId : Str)
  | exitMsg (exitCode : Nat)
  | sessionRestored (sessionId : Str) (currentCwd : Str)
deriving DecidableEq

/-- Test for the `session_restored` message type. -/
def isSessionRestored : OutMsg → Bool
  | .sessionRestored _ _ => true
  | _ => false

/-- One filename's contribution to the auto-cd scan of `handleInit`:
`parts = filename.split('/').filter(Boolean)`; an empty split is skipped,
a one-part split marks a root-level file, and the first part joins the
set of top-level names. -/
def scanStep (st : List Str × Bool) (fn : Str) : List Str × Bool :=
  match (splitSegs fn).filter (· ≠ []) with
  | [] => st
  | p0 :: rest => (setInsert st.1 p0, st.2 ∨ rest = [])

/-- The auto-cd decision of `handleInit` (src/workspace/app.js line 1529):
fold the File Records' filenames into the set of top-level names plus a
root-level-file flag, exactly as the `for (const row of files)` loop
does. -/
def topLevelScan (files : List Str) : List Str × Bool :=
  files.foldl scanStep ([], false)

/-- The tracked-cwd outcome of `handleInit`'s auto-cd block: when no file
sits at the root and exactly one top-level name exists, and
`path.join(root, name)` is an existing directory (`dirOk`), the cwd
becomes that subdirectory; no jail check guards this assignment. -/
def autoCdCwd (root cwd : Str) (files : List Str) (dirOk : Str → Bool) : Str :=
  match topLevelScan files with
  | ([only], false) =>
    if dirOk (joinPath root only) then joinPath root only else cwd
  | _ => cwd

/-- The handler `handleInit` (src/workspace/app.js line 1485), successful
path: build a fresh session whose cwd starts at the workspace root and may
be moved by the auto-cd decision, `sessions.set` it (replacing any live
entry for the same id **without killing that entry's PTY**), spawn a fresh
PTY and mark the session ready, answering `pty-ready`.  The hydration
writes are modelled separately by `hydrate`. -/
def handleInit (w : World) (wsId : Nat) (sid : Str) (root : Str)
    (files : List Str) (dirOk : Str → Bool) : World × List OutMsg :=
  let cwd := autoCdCwd root root files dirOk
  let s : Session :=
    { wsId := wsId, ptyId := some w.nextPty, ptyReady := true,
      currentCwd := cwd }
  ({ registry := mapSet w.registry sid s,
     alivePtys := w.alivePtys ++ [w.nextPty],
     nextPty := w.nextPty + 1 },
   [OutMsg.ptyReady sid])

/-- The handler `handleReconnect` (src/workspace/app.js line 1736): a live
session has its transport rebound and is acknowledged with `pty-ready`
(or an error when not ready); a session absent from memory falls back to
`handleInit`. -/
def handleReconnect (w : World) (wsId : Nat) (sid : Str) (root : Str)
    (files : List Str) (dirOk : Str → Bool) : World × List OutMsg :=
  match mapGet w.registry sid with
  | some s =>
    ({ w with registry := mapSet w.registry sid { s with wsId := wsId } },
     if s.ptyReady then [OutMsg.ptyReady sid]
     else [OutMsg.errorMsg (str "Session not ready")])
  | none => handleInit w wsId sid root files dirOk

/-- Effect of the transport's close event on the server state.  BOTH
registered close handlers fire, in registration order: the first
(src/workspace/app.js line 1457) only clears intervals and deliberately
keeps the session and its PTY; the second (line 1945) kills the session's
PTY and deletes the registry entry. -/
def onSocketClose (w : World) (currentSessionId : Option Str) : World :=
  match currentSessionId with
  | none => w
  | some sid =>
    match mapGet w.registry sid with
    | none => w
    | some s =>
      { registry := mapDelete w.registry sid,
        alivePtys :=
          match s.ptyId with
          | some p => w.alivePtys.filter (· ≠ p)
          | none => w.alivePtys,
        nextPty := w.nextPty }

/-- The cd-tracking update of `handleInput` (src/workspace/app.js line
1814): resolve the target against the tracked cwd (an absolute target is
taken raw), adopt it only when it has the workspace root as a string
prefix. -/
def cdTrackCwd (root cwd target : Str) : Str :=
  if root.isPrefixOf (candidateAbs cwd target) then candidateAbs cwd target
  else cwd

/-- The redirect handling of `handleInput` (src/workspace/app.js line
1839): resolve the analyzer's directory against the workspace root, adopt
it only when it has the root as a string prefix. -/
def redirectCwd (root cwd newCwdRel : Str) : Str :=
  if root.isPrefixOf (resolveAbs root newCwdRel) then resolveAbs root newCwdRel
  else cwd

/-- The security diagnostic of `handleInput` (src/workspace/app.js line
1790). -/
def securityMsg : Str :=
  str "\r\n\x1b[31m[SECURITY] Access denied: Command blocked for security reasons\x1b[0m\r\n"

/-- The hard-coded dangerous pattern list of `handleInput` is the single
literal `cd /app`. -/
def dangerousPattern : Str := str "cd /app"

/-- Observable effects of one `input` message on a ready session: messages
sent back, byte strings written to the PTY, whether the command-analysis
step ran at all, and the session's tracked cwd afterwards. -/
structure InputEffects where
  sent : List OutMsg
  ptyWrites : List Str
  analysisRan : Bool
  newCwd : Str
deriving DecidableEq

/-- The handler `handleInput` (src/workspace/app.js line 1768) on a ready
session, parameterized by the analysis step (`analyzeAndExecuteCommand`,
taking the trimmed line and the cwd current at call time) so that every
possible analysis outcome is covered.  In source order: the dangerous
pattern check on the lowercased, trimmed input returns early with the
security diagnostic; then cd tracking updates the cwd; then analysis runs;
a not-ok analysis returns its diagnostic without writing to the PTY; a
redirect moves the cwd, writes a `cd` line and a notice; finally the raw
input is written to the PTY.  The fire-and-forget mkdir/touch/rm DB
propagation and the npm watch-dog timers touch neither the messages, the
PTY input bytes, nor the cwd, and are not part of these effects. -/
def handleInput (root cwd : Str) (input : Str)
    (analyze : Str → Str → ExecResult) : InputEffects :=
  let inputLower := trimList (input.map lowerChar)
  if containsSub inputLower dangerousPattern then
    { sent := [OutMsg.output securityMsg], ptyWrites := [],
      analysisRan := false, newCwd := cwd }
  else
    let trimmed := trimList input
    let parts := splitWs trimmed
    let cmd := parts.headD []
    let cwd1 :=
      if cmd = str "cd" ∧ parts.length ≥ 2 then
        cdTrackCwd root cwd (joinSpaces (parts.drop 1))
      else cwd
    match analyze trimmed cwd1 with
    | .notOk m =>
      { sent := [OutMsg.output (str "\r\n\x1b[31m[ERROR]\x1b[0m " ++ m ++ str "\r\n")],
        ptyWrites := [], analysisRan := true, newCwd := cwd1 }
    | .okRedirect newCwdRel m =>
      let targetAbs := resolveAbs root newCwdRel
      if root.isPrefixOf targetAbs then
        { sent := [OutMsg.output (str "\r\n\x1b[36m[AUTO]\x1b[0m " ++ m ++ str "\r\n")],
          ptyWrites := [str "cd \"" ++ targetAbs ++ str "\"\n", input],
          analysisRan := true, newCwd := targetAbs }
      else
        { sent := [], ptyWrites := [input], analysisRan := true, newCwd := cwd1 }
    | .okExecute =>
      { sent := [], ptyWrites := [input], analysisRan := true, newCwd := cwd1 }

/-- Invariant claimed for the tracked cwd: an absolute path string having
the session workspace root as a string prefix. -/
def CwdInv (root cwd : Str) : Prop :=
  isAbsolute cwd = true ∧ root.isPrefixOf cwd = true

/-- A segment is plain when it is nonempty, not a dot-segment, and free of
separators — the shape of every segment produced by normalization. -/
def PlainSeg (s : Str) : Prop :=
  s ≠ [] ∧ s ≠ ['.'] ∧ s ≠ ['.', '.'] ∧ '/' ∉ s

instance : DecidablePred PlainSeg := fun s => by
  unfold PlainSeg; exact inferInstance

instance (root cwd : Str) : Decidable (CwdInv root cwd) := by
  unfold CwdInv; exact inferInstance

/-! Helper lemmas about the JS `Set` model. -/

theorem setInsert_mem {l : List Str} {x d : Str} (h : d ∈ setInsert l x) :
    d ∈ l ∨ d = x := by
  unfold setInsert at h
  split at h
  · exact Or.inl h
  · rcases List.mem_append.1 h with h' | h'
    · exact Or.inl h'
    · exact Or.inr (List.mem_singleton.1 h')

theorem mem_setInsert_of_mem {l : List Str} {x d : Str} (h : d ∈ l) :
    d ∈ setInsert l x := by
  unfold setInsert
  split
  · exact h
  · exact List.mem_append.2 (Or.inl h)

theorem self_mem_setInsert (l : List Str) (x : Str) : x ∈ setInsert l x := by
  unfold setInsert
  split
  · exact List.elem_iff.1 (by assumption)
  · exact List.mem_append.2 (Or.inr (List.mem_singleton.2 rfl))

theorem setInsert_nodup {l : List Str} {x : Str} (h : l.Nodup) :
    (setInsert l x).Nodup := by
  unfold setInsert
  split
  · exact h
  · refine List.Nodup.append h (List.nodup_singleton x) ?_
    intro a ha hx
    rw [List.mem_singleton.1 hx] at ha
    have : l.contains x = true := List.elem_iff.2 ha
    simp_all

theorem eq_singleton_of_nodup_all {l : List Str} {a : Str} (hn : l.Nodup)
    (hall : ∀ x ∈ l, x = a) (ha : a ∈ l) : l = [a] := by
  cases l with
  | nil => cases ha
  | cons x rest =>
    have hx : x = a := hall x (List.mem_cons_self x rest)
    subst hx
    cases rest with
    | nil => rfl
    | cons y t =>
      have hy : y = x := hall y (List.mem_cons.2 (Or.inr (List.mem_cons_self y t)))
      rw [List.nodup_cons] at hn
      exact absurd (by rw [← hy]; exact List.mem_cons_self y t) hn.1

/-! Lemmas about path splitting and normalization. -/

theorem splitSegsAux_no_slash : ∀ (s cur : Str), (∀ c ∈ cur, c ≠ '/') →
    ∀ seg ∈ splitSegsAux s cur, '/' ∉ seg := by
  intro s
  induction s with
  | nil =>
    intro cur hcur seg hseg
    rw [splitSegsAux, List.mem_singleton] at hseg
    subst hseg
    intro hmem
    exact hcur '/' (List.mem_reverse.1 hmem) rfl
  | cons c rest ih =>
    intro cur hcur seg hseg
    rw [splitSegsAux] at hseg
    split at hseg
    · rcases List.mem_cons.1 hseg with h | h
      · subst h
        intro hmem
        exact hcur '/' (List.mem_reverse.1 hmem) rfl
      · exact ih [] (by intro x hx; cases hx) seg h
    · refine ih (c :: cur) ?_ seg hseg
      intro x hx
      rcases List.mem_cons.1 hx with h | h
      · subst h; assumption
      · exact hcur x h

theorem splitSegs_no_slash (p : Str) : ∀ seg ∈ splitSegs p, '/' ∉ seg :=
  splitSegsAux_no_slash p [] (by intro c hc; cases hc)

theorem splitSegsAux_cons (c : Char) (rest cur : Str) :
    splitSegsAux (c :: rest) cur =
      if c = '/' then cur.reverse :: splitSegsAux rest []
      else splitSegsAux rest (c :: cur) := rfl

theorem splitSegsAux_append_slash : ∀ (a : Str) (cur b : Str),
    splitSegsAux (a ++ '/' :: b) cur = splitSegsAux a cur ++ splitSegsAux b [] := by
  intro a
  induction a with
  | nil => intro cur b; simp [splitSegsAux]
  | cons c rest ih =>
    intro cur b
    rw [List.cons_append, splitSegsAux_cons, splitSegsAux_cons]
    by_cases hc : c = '/'
    · rw [if_pos hc, if_pos hc, ih [] b, List.cons_append]
    · rw [if_neg hc, if_neg hc, ih (c :: cur) b]

theorem splitSegsAux_of_no_slash : ∀ (s cur : Str), '/' ∉ s →
    splitSegsAux s cur = [cur.reverse ++ s] := by
  intro s
  induction s with
  | nil => intro cur _; simp [splitSegsAux]
  | cons c rest ih =>
    intro cur hs
    have hc : ¬ c = '/' := fun h => hs (h ▸ List.mem_cons_self c rest)
    rw [splitSegsAux, if_neg hc, ih (c :: cur) (fun h => hs (List.mem_cons.2 (Or.inr h)))]
    simp

theorem splitSegs_of_no_slash {s : Str} (h : '/' ∉ s) : splitSegs s = [s] := by
  rw [splitSegs, splitSegsAux_of_no_slash s [] h]
  simp

theorem splitSegs_joinSegs : ∀ (L : List Str), L ≠ [] → (∀ s ∈ L, '/' ∉ s) →
    splitSegs (joinSegs L) = L := by
  intro L
  induction L with
  | nil => intro h; cases h rfl
  | cons s rest ih =>
    intro _ hall
    cases rest with
    | nil =>
      rw [joinSegs, splitSegs_of_no_slash (hall s (List.mem_cons_self s []))]
    | cons t ts =>
      have : joinSegs (s :: t :: ts) = s ++ '/' :: joinSegs (t :: ts) := rfl
      rw [this, splitSegs, splitSegsAux_append_slash,
        splitSegsAux_of_no_slash s [] (hall s (List.mem_cons_self s (t :: ts)))]
      have hrest := ih (by simp) (fun x hx => hall x (List.mem_cons.2 (Or.inr hx)))
      rw [splitSegs] at hrest
      rw [hrest]
      simp

theorem normSegsAux_nil (acc : List Str) : normSegsAux acc [] = acc.reverse := rfl

theorem normSegsAux_empty_cons (acc : List Str) (rest : List Str) :
    normSegsAux acc ([] :: rest) = normSegsAux acc rest := by
  rw [normSegsAux]
  simp

theorem normSegsAux_plain_cons {seg : Str} (hs : PlainSeg seg)
    (acc rest : List Str) :
    normSegsAux acc (seg :: rest) = normSegsAux (seg :: acc) rest := by
  obtain ⟨h1, h2, h3, _⟩ := hs
  rw [normSegsAux, if_neg (by simp [h1, h2]), if_neg h3]

theorem normSegsAux_dotdot_cons (acc rest : List Str) :
    normSegsAux acc (['.', '.'] :: rest) = normSegsAux acc.tail rest := by
  rw [normSegsAux]
  simp

theorem normSegsAux_plain_append {l : List Str} (hl : ∀ s ∈ l, PlainSeg s) :
    ∀ (acc rest : List Str),
    normSegsAux acc (l ++ rest) = normSegsAux (l.reverse ++ acc) rest := by
  induction l with
  | nil => intro acc rest; simp
  | cons s t ih =>
    intro acc rest
    rw [List.cons_append,
      normSegsAux_plain_cons (hl s (List.mem_cons_self s t)),
      ih (fun x hx => hl x (List.mem_cons.2 (Or.inr hx)))]
    simp

theorem normSegsAux_all_plain {l : List Str} (hl : ∀ s ∈ l, PlainSeg s)
    (acc : List Str) : normSegsAux acc l = acc.reverse ++ l := by
  have := normSegsAux_plain_append hl acc []
  rw [List.append_nil] at this
  rw [this, normSegsAux_nil]
  simp

theorem normSegsAux_replicate_dotdot : ∀ (n : Nat) (acc rest : List Str),
    normSegsAux acc (List.replicate n ['.', '.'] ++ rest) =
      normSegsAux (acc.drop n) rest := by
  intro n
  induction n with
  | zero => intro acc rest; simp
  | succ m ih =>
    intro acc rest
    rw [List.replicate_succ, List.cons_append, normSegsAux_dotdot_cons, ih]
    congr 1
    rw [← List.drop_one, List.drop_drop]
    congr 1
    omega

theorem normSegsAux_plain_output : ∀ (l : List Str), (∀ s ∈ l, '/' ∉ s) →
    ∀ (acc : List Str), (∀ s ∈ acc, PlainSeg s) →
    ∀ s ∈ normSegsAux acc l, PlainSeg s := by
  intro l
  induction l with
  | nil =>
    intro _ acc hacc s hs
    rw [normSegsAux_nil] at hs
    exact hacc s (List.mem_reverse.1 hs)
  | cons seg rest ih =>
    intro hl acc hacc s hs
    have hseg : '/' ∉ seg := hl seg (List.mem_cons_self seg rest)
    have hrest : ∀ x ∈ rest, '/' ∉ x := fun x hx => hl x (List.mem_cons.2 (Or.inr hx))
    rw [normSegsAux] at hs
    split at hs
    · exact ih hrest acc hacc s hs
    · split at hs
      · refine ih hrest acc.tail ?_ s hs
        intro x hx
        exact hacc x (List.mem_of_mem_tail hx)
      · refine ih hrest (seg :: acc) ?_ s hs
        intro x hx
        rcases List.mem_cons.1 hx with h | h
        · subst h
          refine ⟨?_, ?_, by assumption, hseg⟩ <;> simp_all
        · exact hacc x h

theorem normSegs_plain (p : Str) : ∀ s ∈ normSegs p, PlainSeg s :=
  normSegsAux_plain_output (splitSegs p) (splitSegs_no_slash p) []
    (by intro s hs; cases hs)

theorem splitSegs_absOfSegs (R : List Str) :
    splitSegs (absOfSegs R) = [] :: splitSegs (joinSegs R) := by
  rw [absOfSegs, splitSegs, splitSegsAux_cons, if_pos rfl]
  rfl

theorem joinSegs_cons_cons (s u : Str) (v : List Str) :
    joinSegs (s :: u :: v) = s ++ '/' :: joinSegs (u :: v) := rfl

theorem normSegs_absOfSegs {R : List Str} (hR : ∀ s ∈ R, PlainSeg s) :
    normSegs (absOfSegs R) = R := by
  cases R with
  | nil => rfl
  | cons s t =>
    rw [normSegs, splitSegs_absOfSegs, normSegsAux_empty_cons,
      splitSegs_joinSegs (s :: t) (by simp) (fun x hx => (hR x hx).2.2.2),
      normSegsAux_all_plain hR]
    simp

theorem dropCommon_decomp : ∀ (F T : List Str),
    ∃ C, F = C ++ (dropCommon F T).1 ∧ T = C ++ (dropCommon F T).2 := by
  intro F
  induction F with
  | nil => intro T; exact ⟨[], by simp [dropCommon]⟩
  | cons a f ih =>
    intro T
    cases T with
    | nil => exact ⟨[], by simp [dropCommon]⟩
    | cons b t =>
      by_cases hab : a = b
      · subst hab
        obtain ⟨C, h1, h2⟩ := ih t
        refine ⟨a :: C, ?_, ?_⟩
        · rw [dropCommon, if_pos rfl, List.cons_append, ← h1]
        · rw [dropCommon, if_pos rfl, List.cons_append, ← h2]
      · exact ⟨[], by rw [dropCommon, if_neg hab]; simp⟩

theorem dropCommon_append : ∀ (R L : List Str), dropCommon R (R ++ L) = ([], L) := by
  intro R
  induction R with
  | nil =>
    intro L
    cases L <;> rfl
  | cons a f ih =>
    intro L
    rw [List.cons_append, dropCommon, if_pos rfl, ih]

theorem joinSegs_ne_nil {L : List Str} (hne : L ≠ [])
    (hel : ∀ s ∈ L, s ≠ []) : joinSegs L ≠ [] := by
  cases L with
  | nil => cases hne rfl
  | cons s t =>
    cases t with
    | nil => exact hel s (List.mem_cons_self s [])
    | cons u v =>
      rw [joinSegs_cons_cons]
      intro h
      exact hel s (List.mem_cons_self s (u :: v))
        (List.append_eq_nil.1 h).1

theorem isAbsolute_joinSegs {L : List Str} (h0 : L ≠ [])
    (hne : L.headD [] ≠ []) (hns : '/' ∉ L.headD []) :
    isAbsolute (joinSegs L) = false := by
  cases L with
  | nil => cases h0 rfl
  | cons a t =>
    simp only [List.headD_cons] at hne hns
    cases a with
    | nil => cases hne rfl
    | cons c cs =>
      have hc : ¬ c = '/' := fun h => hns (h ▸ List.mem_cons_self c cs)
      cases t with
      | nil => simp [joinSegs, isAbsolute, hc]
      | cons u v =>
        rw [joinSegs_cons_cons, List.cons_append]
        simp [isAbsolute, hc]

theorem map_const_dotdot (F : List Str) :
    F.map (fun _ => (['.', '.'] : Str)) = List.replicate F.length ['.', '.'] := by
  induction F with
  | nil => rfl
  | cons a t ih => simp [ih, List.replicate_succ]

theorem joinSegs_append_single : ∀ (R : List Str), R ≠ [] → ∀ (x : Str),
    joinSegs (R ++ [x]) = joinSegs R ++ '/' :: x := by
  intro R
  induction R with
  | nil => intro h; cases h rfl
  | cons a t ih =>
    intro _ x
    cases t with
    | nil => rfl
    | cons u v =>
      rw [List.cons_append, List.cons_append, joinSegs_cons_cons,
        ← List.cons_append, ih (by simp) x, joinSegs_cons_cons]
      simp

/-- Core resolution lemma: resolving a separator-free relative segment
list against a plain absolute base runs the normalizer with the base's
segments pre-loaded. -/
theorem resolveAbs_join {R : List Str} (hR : ∀ s ∈ R, PlainSeg s)
    (L : List Str) (hslash : ∀ s ∈ L, '/' ∉ s) (hne : ∀ s ∈ L, s ≠ []) :
    resolveAbs (absOfSegs R) (joinSegs L) =
      '/' :: joinSegs (normSegsAux R.reverse L) := by
  have habs : isAbsolute (joinSegs L) = false := by
    cases L with
    | nil => rfl
    | cons a t =>
      exact isAbsolute_joinSegs (by simp)
        (by simpa using hne a (List.mem_cons_self a t))
        (by simpa using hslash a (List.mem_cons_self a t))
  rw [resolveAbs]
  simp only [habs, Bool.false_eq_true, if_false]
  have hsplitL : splitSegs (joinSegs L) = if L = [] then [[]] else L := by
    split
    · subst L; rfl
    · exact splitSegs_joinSegs L (by assumption) hslash
  congr 1
  cases hRnil : R with
  | nil =>
    rw [splitSegs_absOfSegs]
    by_cases hL : L = []
    · subst hL; rfl
    · rw [hsplitL, if_neg hL]
      show joinSegs (normSegsAux [] (([] : Str) :: ([[]] ++ L))) = _
      rw [normSegsAux_empty_cons]
      show joinSegs (normSegsAux [] (([] : Str) :: L)) = _
      rw [normSegsAux_empty_cons]
      rfl
  | cons s t =>
    rw [← hRnil, splitSegs_absOfSegs,
      splitSegs_joinSegs R (by rw [hRnil]; simp) (fun x hx => (hR x hx).2.2.2)]
    by_cases hL : L = []
    · subst hL
      rw [hsplitL, if_pos rfl]
      show joinSegs (normSegsAux [] (([] : Str) :: (R ++ [[]]))) = _
      rw [normSegsAux_empty_cons, normSegsAux_plain_append hR, normSegsAux_empty_cons]
      simp
    · rw [hsplitL, if_neg hL]
      show joinSegs (normSegsAux [] (([] : Str) :: (R ++ L))) = _
      rw [normSegsAux_empty_cons, normSegsAux_plain_append hR]
      simp

/-- Segment-level round trip: resolving a climb-then-descend relative
list against the base it was computed from lands on the target. -/
theorem resolve_rel_segs {R C F T : List Str} (hR : ∀ s ∈ R, PlainSeg s)
    (hT : ∀ s ∈ T, PlainSeg s) (hF : R = C ++ F) :
    resolveAbs (absOfSegs R) (joinSegs (F.map (fun _ => (['.', '.'] : Str)) ++ T))
      = absOfSegs (C ++ T) := by
  have hslash : ∀ s ∈ F.map (fun _ => (['.', '.'] : Str)) ++ T, '/' ∉ s := by
    intro s hs
    rcases List.mem_append.1 hs with h | h
    · rcases List.mem_map.1 h with ⟨a, _, ha⟩
      rw [← ha]; decide
    · exact (hT s h).2.2.2
  have hne : ∀ s ∈ F.map (fun _ => (['.', '.'] : Str)) ++ T, s ≠ [] := by
    intro s hs
    rcases List.mem_append.1 hs with h | h
    · rcases List.mem_map.1 h with ⟨a, _, ha⟩
      rw [← ha]; decide
    · exact (hT s h).1
  rw [resolveAbs_join hR _ hslash hne, map_const_dotdot,
    normSegsAux_replicate_dotdot, hF, List.reverse_append,
    ← List.length_reverse F, List.drop_left, normSegsAux_all_plain hT,
    List.reverse_reverse]
  rfl

/-- Round trip of the jail's relative result: re-resolving
`path.relative(root, abs)` against the root reproduces the normalized
`abs` — `relAbs` really is the workspace-relative counterpart. -/
theorem resolveAbs_relAbs {R : List Str} (hR : ∀ s ∈ R, PlainSeg s)
    (abs : Str) :
    resolveAbs (absOfSegs R) (relAbs (absOfSegs R) abs) =
      absOfSegs (normSegs abs) := by
  obtain ⟨C, hF, hT⟩ := dropCommon_decomp R (normSegs abs)
  have hT'plain : ∀ s ∈ (dropCommon R (normSegs abs)).2, PlainSeg s := by
    intro s hs
    exact normSegs_plain abs s (hT ▸ List.mem_append.2 (Or.inr hs))
  have hrel : relAbs (absOfSegs R) abs =
      joinSegs ((dropCommon R (normSegs abs)).1.map (fun _ => (['.', '.'] : Str))
        ++ (dropCommon R (normSegs abs)).2) := by
    rw [relAbs, normSegs_absOfSegs hR]
  rw [hrel, resolve_rel_segs hR hT'plain hF, ← hT]

/-- A plain segment is not an absolute path. -/
theorem isAbsolute_of_plain {x : Str} (hx : PlainSeg x) :
    isAbsolute x = false := by
  obtain ⟨h1, _, _, h4⟩ := hx
  cases x with
  | nil => cases h1 rfl
  | cons c cs =>
    rw [isAbsolute]
    simp only [decide_eq_false_iff_not]
    intro hc
    exact h4 (hc ▸ List.mem_cons_self c cs)

/-- Resolving one plain segment against a plain absolute base appends
it. -/
theorem normSegsAux_cons (acc : List Str) (seg : Str) (rest : List Str) :
    normSegsAux acc (seg :: rest) =
      if seg = [] ∨ seg = ['.'] then normSegsAux acc rest
      else if seg = ['.', '.'] then normSegsAux acc.tail rest
      else normSegsAux (seg :: acc) rest := rfl

theorem resolveAbs_plain_seg {R : List Str} (hR : ∀ s ∈ R, PlainSeg s)
    {x : Str} (hx : PlainSeg x) :
    resolveAbs (absOfSegs R) x = absOfSegs (R ++ [x]) := by
  have h := resolveAbs_join hR [x]
    (by intro s hs; rw [List.mem_singleton.1 hs]; exact hx.2.2.2)
    (by intro s hs; rw [List.mem_singleton.1 hs]; exact hx.1)
  rw [show joinSegs [x] = x from rfl] at h
  rw [h, normSegsAux_plain_cons hx, normSegsAux_nil, absOfSegs]
  simp

/-- Node `path.join` agrees with `path.resolve` on relative second
arguments against an absolute base. -/
theorem joinPath_eq_resolveAbs {a p : Str} (h : isAbsolute p = false) :
    joinPath a p = resolveAbs a p := by
  rw [joinPath, resolveAbs]
  simp [h]

/-- Joining the single segment `.` onto a plain absolute base is the
base itself. -/
theorem joinPath_dot {R : List Str} (hR : ∀ s ∈ R, PlainSeg s) :
    joinPath (absOfSegs R) ['.'] = absOfSegs R := by
  have h := resolveAbs_join hR [['.']] (by decide) (by decide)
  rw [show joinSegs [['.']] = ['.'] from rfl] at h
  rw [joinPath_eq_resolveAbs (by rfl), h, normSegsAux_cons]
  simp [normSegsAux_nil, absOfSegs]

/-- The root is a string prefix of the root extended by one segment. -/
theorem isPrefixOf_absOfSegs_append (R : List Str) (x : Str) :
    (absOfSegs R).isPrefixOf (absOfSegs (R ++ [x])) = true := by
  rw [List.isPrefixOf_iff_prefix]
  cases R with
  | nil => exact ⟨x, rfl⟩
  | cons s t =>
    rw [absOfSegs, absOfSegs, joinSegs_append_single (s :: t) (by simp) x]
    exact ⟨'/' :: x, by simp⟩

/-- String-prefix reflexivity, `Bool` form. -/
theorem isPrefixOf_self (s : Str) : s.isPrefixOf s = true := by
  rw [List.isPrefixOf_iff_prefix]

/-! Lemmas about trimming, lowering and substring search, used by the
security-rule theorem. -/

theorem containsSub_of_decomp {s pat a b : Str} (h : s = a ++ pat ++ b) :
    containsSub s pat = true := by
  rw [containsSub, List.any_eq_true]
  refine ⟨a.length, ?_, ?_⟩
  · rw [List.mem_range, h]
    simp only [List.length_append]
    omega
  · rw [h, List.append_assoc, List.drop_left, List.isPrefixOf_iff_prefix]
    exact List.prefix_append pat b

theorem dropWhile_keeps_decomp : ∀ (a : Str) (c : Char) (p1 b : Str),
    isWsChar c = false →
    ∃ a', List.dropWhile isWsChar (a ++ (c :: p1) ++ b) = a' ++ (c :: p1) ++ b := by
  intro a
  induction a with
  | nil =>
    intro c p1 b hc
    refine ⟨[], ?_⟩
    simp [List.dropWhile_cons, hc]
  | cons d t ih =>
    intro c p1 b hc
    have hshape : (d :: t) ++ (c :: p1) ++ b = d :: (t ++ (c :: p1) ++ b) := by
      simp
    rw [hshape, List.dropWhile_cons]
    by_cases hd : isWsChar d = true
    · rw [if_pos hd]
      exact ih c p1 b hc
    · rw [if_neg hd]
      exact ⟨d :: t, by simp⟩

theorem trimList_keeps_decomp (a b p : Str) (c d : Char)
    (p1 p2 : Str) (hp1 : p = c :: p1) (hp2 : p = p2 ++ [d])
    (hc : isWsChar c = false) (hd : isWsChar d = false) :
    ∃ a' b', trimList (a ++ p ++ b) = a' ++ p ++ b' := by
  obtain ⟨a', ha'⟩ := dropWhile_keeps_decomp a c p1 b hc
  rw [← hp1] at ha'
  have hrev : (a' ++ p ++ b).reverse =
      b.reverse ++ (d :: p2.reverse) ++ a'.reverse := by
    rw [hp2]
    simp
  obtain ⟨b', hb'⟩ :=
    dropWhile_keeps_decomp b.reverse d p2.reverse a'.reverse hd
  refine ⟨a', b'.reverse, ?_⟩
  rw [trimList, ha', hrev, hb', hp2]
  simp

theorem lower_dangerous : dangerousPattern.map lowerChar = dangerousPattern := by
  decide

/-- The dangerous-pattern test of `handleInput` fires on every input that
contains the literal pattern. -/
theorem dangerous_check_fires {input : Str}
    (hdang : ∃ a b, input = a ++ dangerousPattern ++ b) :
    containsSub (trimList (input.map lowerChar)) dangerousPattern = true := by
  obtain ⟨a, b, hin⟩ := hdang
  have hmap : input.map lowerChar =
      a.map lowerChar ++ dangerousPattern ++ b.map lowerChar := by
    rw [hin]
    simp [lower_dangerous]
  obtain ⟨a', b', htrim⟩ :=
    trimList_keeps_decomp (a.map lowerChar) (b.map lowerChar)
      dangerousPattern 'c' 'p' (str "d /app") (str "cd /ap")
      (by decide) (by decide) (by decide) (by decide)
  rw [hmap]
  exact containsSub_of_decomp htrim

/-! Lemmas about the registry map. -/

theorem countKey_cons (e : Str × Session) (m : List (Str × Session)) (k : Str) :
    countKey (e :: m) k = (if e.1 = k then 1 else 0) + countKey m k := by
  rw [countKey, countKey, List.filter_cons]
  by_cases h : e.1 = k
  · simp [h, Nat.add_comm]
  · simp [h]

theorem countKey_zero_of_not_mem {m : List (Str × Session)} {k : Str}
    (h : k ∉ m.map Prod.fst) : countKey m k = 0 := by
  induction m with
  | nil => rfl
  | cons e rest ih =>
    rw [countKey_cons]
    have he : ¬ e.1 = k := by
      intro hk
      exact h (List.mem_map.2 ⟨e, List.mem_cons_self e rest, hk⟩)
    rw [if_neg he, ih (fun hk => h (List.mem_cons.2 (Or.inr hk)))]

theorem countKey_mapSet_self : ∀ {m : List (Str × Session)} {k : Str},
    (m.map Prod.fst).Nodup → ∀ (v : Session),
    countKey (mapSet m k v) k = 1 := by
  intro m
  induction m with
  | nil =>
    intro k _ v
    simp [mapSet, countKey]
  | cons e rest ih =>
    intro k hnd v
    rw [List.map_cons, List.nodup_cons] at hnd
    obtain ⟨hek, hrest⟩ := hnd
    by_cases he : e.1 = k
    · rw [mapSet, if_pos he, countKey_cons, if_pos rfl,
        countKey_zero_of_not_mem (he ▸ hek)]
    · rw [mapSet, if_neg he, countKey_cons, if_neg he, ih hrest v]

theorem mapGet_mapSet : ∀ (m : List (Str × Session)) (k : Str) (v : Session),
    mapGet (mapSet m k v) k = some v := by
  intro m
  induction m with
  | nil => intro k v; simp [mapSet, mapGet]
  | cons e rest ih =>
    intro k v
    by_cases he : e.1 = k
    · rw [mapSet, if_pos he, mapGet, if_pos rfl]
    · rw [mapSet, if_neg he, mapGet, if_neg he, ih]

theorem keys_mapSet_mem : ∀ {m : List (Str × Session)} {k : Str}
    {v : Session} {x : Str}, x ∈ (mapSet m k v).map Prod.fst →
    x ∈ m.map Prod.fst ∨ x = k := by
  intro m
  induction m with
  | nil =>
    intro k v x hx
    simp [mapSet] at hx
    exact Or.inr hx
  | cons e rest ih =>
    intro k v x hx
    by_cases he : e.1 = k
    · rw [mapSet, if_pos he] at hx
      rcases List.mem_map.1 hx with ⟨a, ha, hax⟩
      rcases List.mem_cons.1 ha with h | h
      · exact Or.inr (by rw [← hax, h])
      · exact Or.inl (List.mem_map.2 ⟨a, List.mem_cons.2 (Or.inr h), hax⟩)
    · rw [mapSet, if_neg he] at hx
      rcases List.mem_map.1 hx with ⟨a, ha, hax⟩
      rcases List.mem_cons.1 ha with h | h
      · exact Or.inl (List.mem_map.2 ⟨a, List.mem_cons.2 (Or.inl h), hax⟩)
      · rcases ih (List.mem_map.2 ⟨a, h, hax⟩) with h' | h'
        · exact Or.inl (by
            rcases List.mem_map.1 h' with ⟨b, hb, hbx⟩
            exact List.mem_map.2 ⟨b, List.mem_cons.2 (Or.inr hb), hbx⟩)
        · exact Or.inr h'

theorem keys_mapSet_nodup : ∀ {m : List (Str × Session)} {k : Str}
    (v : Session), (m.map Prod.fst).Nodup →
    ((mapSet m k v).map Prod.fst).Nodup := by
  intro m
  induction m with
  | nil => intro k v _; simp [mapSet]
  | cons e rest ih =>
    intro k v hnd
    rw [List.map_cons, List.nodup_cons] at hnd
    obtain ⟨hek, hrest⟩ := hnd
    by_cases he : e.1 = k
    · rw [mapSet, if_pos he, List.map_cons, List.nodup_cons]
      exact ⟨he ▸ hek, hrest⟩
    · rw [mapSet, if_neg he, List.map_cons, List.nodup_cons]
      refine ⟨?_, ih v hrest⟩
      intro hmem
      rcases keys_mapSet_mem hmem with h | h
      · exact hek h
      · exact he h

theorem mapGet_mapDelete (m : List (Str × Session)) (k : Str) :
    mapGet (mapDelete m k) k = none := by
  induction m with
  | nil => rfl
  | cons e rest ih =>
    rw [mapDelete, List.filter_cons]
    by_cases he : e.1 = k
    · rw [if_neg (by simp [he])]
      exact ih
    · rw [if_pos (by simp [he]), mapGet, if_neg he]
      exact ih

/-! Lemmas about hydration. -/

theorem diskRead_diskWrite_self (d : Disk) (p c : Str) :
    diskRead (diskWrite d p c) p = some c := by
  rw [diskWrite, diskRead, List.find?]
  simp

theorem diskRead_diskWrite_other (d : Disk) {p q : Str} (c : Str)
    (h : ¬ q = p) : diskRead (diskWrite d q c) p = diskRead d p := by
  rw [diskWrite, diskRead, List.find?]
  simp [h]
  rfl

theorem hydrate_cons (f : FileRecord) (rest : List FileRecord) (d : Disk) :
    hydrate (f :: rest) d = hydrate rest
      (match f.content with
        | some c => if c ≠ [] then diskWrite d f.filename c else d
        | none => d) := by
  rw [hydrate, hydrate, List.foldl_cons]

theorem hydrate_not_mem : ∀ (files : List FileRecord) (d : Disk) (p : Str),
    p ∉ files.map FileRecord.filename →
    diskRead (hydrate files d) p = diskRead d p := by
  intro files
  induction files with
  | nil => intro d p _; rfl
  | cons f rest ih =>
    intro d p hp
    have hfp : ¬ f.filename = p := by
      intro h
      exact hp (List.mem_map.2 ⟨f, List.mem_cons_self f rest, h⟩)
    have hrest : p ∉ rest.map FileRecord.filename := by
      intro h
      exact hp (List.mem_cons.2 (Or.inr h))
    rw [hydrate_cons]
    cases hfc : f.content with
    | none =>
      simp only [hfc]
      exact ih d p hrest
    | some c =>
      by_cases hcnil : c = []
      · simp only [hfc, hcnil]
        rw [if_neg (by simp)]
        exact ih d p hrest
      · simp only [hfc]
        rw [if_pos (by simpa using hcnil), ih (diskWrite d f.filename c) p hrest,
          diskRead_diskWrite_other d c hfp]

theorem hydrate_written : ∀ (files : List FileRecord) (d : Disk)
    (r : FileRecord) (c : Str),
    (files.map FileRecord.filename).Nodup → r ∈ files →
    r.content = some c → c ≠ [] →
    diskRead (hydrate files d) r.filename = some c := by
  intro files
  induction files with
  | nil => intro d r c _ hr; cases hr
  | cons f rest ih =>
    intro d r c hnd hr hc hcne
    rw [List.map_cons, List.nodup_cons] at hnd
    obtain ⟨hfk, hrest⟩ := hnd
    rw [hydrate_cons]
    rcases List.mem_cons.1 hr with h | h
    · subst h
      simp only [hc]
      rw [if_pos (by simpa using hcne),
        hydrate_not_mem rest (diskWrite d r.filename c) r.filename hfk,
        diskRead_diskWrite_self]
    · cases hfc : f.content with
      | none =>
        simp only [hfc]
        exact ih d r c hrest h hc hcne
      | some c' =>
        by_cases hcnil : c' = []
        · simp only [hfc, hcnil]
          rw [if_neg (by simp)]
          exact ih d r c hrest h hc hcne
        · simp only [hfc]
          rw [if_pos (by simpa using hcnil)]
          exact ih (diskWrite d f.filename c') r c hrest h hc hcne

theorem hydrate_skipped : ∀ (files : List FileRecord) (d : Disk)
    (r : FileRecord),
    (files.map FileRecord.filename).Nodup → r ∈ files →
    (r.content = none ∨ r.content = some []) →
    diskRead d r.filename = none →
    diskRead (hydrate files d) r.filename = none := by
  intro files
  induction files with
  | nil => intro d r _ hr; cases hr
  | cons f rest ih =>
    intro d r hnd hr hc hd
    rw [List.map_cons, List.nodup_cons] at hnd
    obtain ⟨hfk, hrest⟩ := hnd
    rw [hydrate_cons]
    rcases List.mem_cons.1 hr with h | h
    · subst h
      have hskip : (match r.content with
          | some c => if c ≠ [] then diskWrite d r.filename c else d
          | none => d) = d := by
        rcases hc with h | h
        · rw [h]
        · rw [h]
          simp
      rw [hskip, hydrate_not_mem rest d r.filename hfk]
      exact hd
    · have hne : ¬ f.filename = r.filename := by
        intro heq
        exact hfk (heq ▸ List.mem_map.2 ⟨r, h, rfl⟩)
      cases hfc : f.content with
      | none =>
        simp only [hfc]
        exact ih d r hrest h hc hd
      | some c' =>
        by_cases hcnil : c' = []
        · simp only [hfc, hcnil]
          rw [if_neg (by simp)]
          exact ih d r hrest h hc hd
        · simp only [hfc]
          rw [if_pos (by simpa using hcnil)]
          refine ih (diskWrite d f.filename c') r hrest h hc ?_
          rw [diskRead_diskWrite_other d c' hne]
          exact hd

/-! Lemmas about the project-root detection folds. -/

theorem mem_indicatorDirs_of_mem : ∀ (dbFiles : List Str) (ind : Str)
    {acc : List Str} {x : Str}, x ∈ acc → x ∈ indicatorDirs dbFiles ind acc := by
  intro dbFiles
  induction dbFiles with
  | nil => intro ind acc x hx; exact hx
  | cons fn rest ih =>
    intro ind acc x hx
    rw [indicatorDirs] at *
    rw [List.foldl_cons]
    apply ih
    split
    · split
      · exact mem_setInsert_of_mem hx
      · exact hx
    · exact hx

theorem indicatorDirs_all : ∀ (dbFiles : List Str) (ind : Str)
    {acc : List Str} {a : Str}, (∀ d ∈ acc, d = a) →
    (∀ fn ∈ dbFiles, ('/' :: ind).isSuffixOf fn = true → dirname fn = a) →
    ∀ d ∈ indicatorDirs dbFiles ind acc, d = a := by
  intro dbFiles
  induction dbFiles with
  | nil => intro ind acc a hacc _ d hd; exact hacc d hd
  | cons fn rest ih =>
    intro ind acc a hacc hdir d hd
    rw [indicatorDirs] at *
    rw [List.foldl_cons] at hd
    refine ih ind ?_ (fun x hx hs => hdir x (List.mem_cons.2 (Or.inr hx)) hs) d hd
    intro e he
    split at he
    · split at he
      · rcases setInsert_mem he with h | h
        · exact hacc e h
        · rw [h]
          exact hdir fn (List.mem_cons_self fn rest) (by assumption)
      · exact hacc e he
    · exact hacc e he

theorem mem_indicatorDirs_adds : ∀ (dbFiles : List Str) (ind : Str)
    {acc : List Str} {fn : Str}, fn ∈ dbFiles →
    ('/' :: ind).isSuffixOf fn = true → dirname fn ≠ str "." →
    dirname fn ∈ indicatorDirs dbFiles ind acc := by
  intro dbFiles
  induction dbFiles with
  | nil => intro ind acc fn hfn; cases hfn
  | cons g rest ih =>
    intro ind acc fn hfn hsuf hdot
    rw [indicatorDirs] at *
    rw [List.foldl_cons]
    rcases List.mem_cons.1 hfn with h | h
    · subst h
      have step : (if ('/' :: ind).isSuffixOf fn = true then
          if dirname fn ≠ str "." then setInsert acc (dirname fn) else acc
          else acc) = setInsert acc (dirname fn) := by
        rw [if_pos hsuf, if_pos hdot]
      rw [step]
      exact mem_indicatorDirs_of_mem rest ind (self_mem_setInsert acc (dirname fn))
    · exact ih ind h hsuf hdot

theorem indicatorDirs_nodup : ∀ (dbFiles : List Str) (ind : Str)
    {acc : List Str}, acc.Nodup → (indicatorDirs dbFiles ind acc).Nodup := by
  intro dbFiles
  induction dbFiles with
  | nil => intro ind acc h; exact h
  | cons fn rest ih =>
    intro ind acc h
    rw [indicatorDirs] at *
    rw [List.foldl_cons]
    apply ih
    split
    · split
      · exact setInsert_nodup h
      · exact h
    · exact h

theorem detectFold_mono : ∀ (inds : List Str) (dbFiles : List Str)
    {acc : List Str} {x : Str}, x ∈ acc →
    x ∈ inds.foldl (detectStep dbFiles) acc := by
  intro inds
  induction inds with
  | nil => intro dbFiles acc x hx; exact hx
  | cons i rest ih =>
    intro dbFiles acc x hx
    rw [List.foldl_cons]
    apply ih
    rw [detectStep]
    apply mem_indicatorDirs_of_mem
    split
    · exact mem_setInsert_of_mem hx
    · exact hx

theorem detectFold_all : ∀ (inds : List Str) (dbFiles : List Str)
    {acc : List Str} {a : Str},
    (∀ i ∈ inds, dbFiles.contains i = false) →
    (∀ fn ∈ dbFiles, ∀ i ∈ inds, ('/' :: i).isSuffixOf fn = true → dirname fn = a) →
    (∀ d ∈ acc, d = a) →
    ∀ d ∈ inds.foldl (detectStep dbFiles) acc, d = a := by
  intro inds
  induction inds with
  | nil => intro dbFiles acc a _ _ hacc d hd; exact hacc d hd
  | cons i rest ih =>
    intro dbFiles acc a hcont hdir hacc d hd
    rw [List.foldl_cons] at hd
    refine ih dbFiles (fun x hx => hcont x (List.mem_cons.2 (Or.inr hx)))
      (fun fn hfn x hx hs => hdir fn hfn x (List.mem_cons.2 (Or.inr hx)) hs)
      ?_ d hd
    rw [detectStep, if_neg (by rw [hcont i (List.mem_cons_self i rest)]; simp)]
    exact indicatorDirs_all dbFiles i hacc
      (fun fn hfn hs => hdir fn hfn i (List.mem_cons_self i rest) hs)

theorem detectFold_mem : ∀ (inds : List Str) (dbFiles : List Str)
    {acc : List Str} (i₀ fn : Str), i₀ ∈ inds → fn ∈ dbFiles →
    ('/' :: i₀).isSuffixOf fn = true → dirname fn ≠ str "." →
    dirname fn ∈ inds.foldl (detectStep dbFiles) acc := by
  intro inds
  induction inds with
  | nil => intro dbFiles acc i₀ fn hi; cases hi
  | cons i rest ih =>
    intro dbFiles acc i₀ fn hi hfn hsuf hdot
    rw [List.foldl_cons]
    rcases List.mem_cons.1 hi with h | h
    · subst h
      apply detectFold_mono
      rw [detectStep]
      exact mem_indicatorDirs_adds dbFiles i₀ hfn hsuf hdot
    · exact ih dbFiles i₀ fn h hfn hsuf hdot

theorem detectFold_nodup : ∀ (inds : List Str) (dbFiles : List Str)
    {acc : List Str}, acc.Nodup →
    (inds.foldl (detectStep dbFiles) acc).Nodup := by
  intro inds
  induction inds with
  | nil => intro dbFiles acc h; exact h
  | cons i rest ih =>
    intro dbFiles acc h
    rw [List.foldl_cons]
    apply ih
    rw [detectStep]
    apply indicatorDirs_nodup
    split
    · exact setInsert_nodup h
    · exact h

/-- Under the hypotheses of the redirect scenario, `detectProjectRoot`
suggests exactly `proj`. -/
theorem detectProjectRoot_proj {dbFiles : List Str}
    (hunder : ∀ fn ∈ dbFiles, (str "proj/").isPrefixOf fn = true)
    (hpj : str "proj/package.json" ∈ dbFiles)
    (honly : ∀ fn ∈ dbFiles, ∀ ind ∈ projectIndicators,
      ('/' :: ind).isSuffixOf fn = true → dirname fn = str "proj") :
    detectProjectRoot dbFiles = some (str "proj") := by
  have hcont : ∀ ind ∈ projectIndicators, dbFiles.contains ind = false := by
    intro ind hind
    rw [← Bool.not_eq_true]
    intro hc
    have hmem : ind ∈ dbFiles := List.elem_iff.1 hc
    have hpre := hunder ind hmem
    have hnp : ∀ i ∈ projectIndicators, (str "proj/").isPrefixOf i = false := by
      decide
    rw [hnp ind hind] at hpre
    cases hpre
  have hall : ∀ d ∈ projectIndicators.foldl (detectStep dbFiles) [], d = str "proj" :=
    detectFold_all projectIndicators dbFiles hcont honly (by intro d hd; cases hd)
  have hmem : str "proj" ∈ projectIndicators.foldl (detectStep dbFiles) [] := by
    have h := @detectFold_mem projectIndicators dbFiles []
      (str "package.json") (str "proj/package.json")
      (by decide) hpj (by decide) (by decide)
    have hdir : dirname (str "proj/package.json") = str "proj" := by decide
    rw [hdir] at h
    exact h
  have hnd : (projectIndicators.foldl (detectStep dbFiles) []).Nodup :=
    detectFold_nodup projectIndicators dbFiles List.nodup_nil
  have hsingle := eq_singleton_of_nodup_all hnd hall hmem
  rw [detectProjectRoot, hsingle]
  simp [str]

/-! Lemma about the auto-cd top-level scan. -/

theorem topLevelScan_mem : ∀ (files : List Str) (st : List Str × Bool)
    {x : Str}, x ∈ (files.foldl scanStep st).1 →
    x ∈ st.1 ∨ ∃ fn ∈ files, ∃ r, (splitSegs fn).filter (· ≠ []) = x :: r := by
  intro files
  induction files with
  | nil => intro st x hx; exact Or.inl hx
  | cons fn rest ih =>
    intro st x hx
    rw [List.foldl_cons] at hx
    rcases ih (scanStep st fn) hx with h | h
    · rw [scanStep] at h
      split at h
      · exact Or.inl h
      · rcases setInsert_mem h with h' | h'
        · exact Or.inl h'
        · subst h'
          refine Or.inr ⟨fn, List.mem_cons_self fn rest, ?_, by assumption⟩
    · rcases h with ⟨g, hg, r, hr⟩
      exact Or.inr ⟨g, List.mem_cons.2 (Or.inr hg), r, hr⟩

/-! Remaining shared lemmas. -/

theorem isAbsolute_absOfSegs (R : List Str) :
    isAbsolute (absOfSegs R) = true := rfl

theorem isAbsolute_resolveAbs (base p : Str) :
    isAbsolute (resolveAbs base p) = true := rfl

theorem isAbsolute_candidateAbs {cwd t : Str} :
    isAbsolute (candidateAbs cwd t) = true := by
  rw [candidateAbs]
  by_cases h : isAbsolute t = true
  · rw [if_pos h]
    exact h
  · rw [if_neg h]
    exact isAbsolute_resolveAbs cwd t

/-- The jail accepts a plain relative segment from the workspace root and
returns it unchanged. -/
theorem resolvePath_plain {R : List Str} (hR : ∀ s ∈ R, PlainSeg s)
    {x : Str} (hx : PlainSeg x) :
    resolvePath (absOfSegs R) (absOfSegs R) x = some (backToSlash x) := by
  have hcand : candidateAbs (absOfSegs R) x = absOfSegs (R ++ [x]) := by
    rw [candidateAbs, isAbsolute_of_plain hx]
    simp [resolveAbs_plain_seg hR hx]
  have hrel : relAbs (absOfSegs R) (absOfSegs (R ++ [x])) = x := by
    have hRx : ∀ s ∈ R ++ [x], PlainSeg s := by
      intro s hs
      rcases List.mem_append.1 hs with h | h
      · exact hR s h
      · rw [List.mem_singleton.1 h]
        exact hx
    rw [relAbs, normSegs_absOfSegs hR, normSegs_absOfSegs hRx, dropCommon_append]
    rfl
  rw [resolvePath, if_neg hx.1, hcand, if_pos (isPrefixOf_absOfSegs_append R x), hrel]

/-!
Claim theorems.
-/

/-- C2, counterexample: the relative candidate `../s1x/secret.txt`,
issued from the workspace root `/data/sessions/s1`, contains a `..`
segment and resolves to `/data/sessions/s1x/secret.txt` — outside the
workspace root — yet `resolvePath` does not return null, because the
jail is a raw string-prefix test and the sibling directory's absolute
path extends the root's string. -/
theorem C2_counterexample :
    hasDotDot (str "../s1x/secret.txt") = true
    ∧ landsOutside (str "/data/sessions/s1")
        (candidateAbs (str "/data/sessions/s1") (str "../s1x/secret.txt")) = true
    ∧ resolvePath (str "/data/sessions/s1") (str "/data/sessions/s1")
        (str "../s1x/secret.txt") ≠ none := by decide

/-- C2 (amended): for every nonempty candidate path, `resolvePath` returns
null exactly when the resolved absolute candidate does not extend the
workspace root as a string; when the prefix test passes it returns
`path.relative(root, resolved)` (backslash-normalized), and that relative
result re-resolves against the root to the normalized resolved candidate
(the round trip), so it is genuinely workspace-relative — though it may
itself climb with `..` when the candidate escaped to a string-extending
sibling. -/
theorem C2_resolvePath_amended (R : List Str) (hR : ∀ s ∈ R, PlainSeg s)
    (cwd p : Str) (hp : p ≠ []) :
    ((absOfSegs R).isPrefixOf (candidateAbs cwd p) = false →
      resolvePath (absOfSegs R) cwd p = none)
    ∧ ((absOfSegs R).isPrefixOf (candidateAbs cwd p) = true →
      resolvePath (absOfSegs R) cwd p
        = some (backToSlash (relAbs (absOfSegs R) (candidateAbs cwd p)))
      ∧ resolveAbs (absOfSegs R) (relAbs (absOfSegs R) (candidateAbs cwd p))
        = absOfSegs (normSegs (candidateAbs cwd p))) := by
  constructor
  · intro hpre
    rw [resolvePath, if_neg hp, if_neg (by rw [hpre]; simp)]
  · intro hpre
    exact ⟨by rw [resolvePath, if_neg hp, if_pos hpre],
      resolveAbs_relAbs hR (candidateAbs cwd p)⟩

/-- C2 witness: a `..` traversal from the root of workspace
`/data/sessions/s1` to `/etc/passwd` is rejected. -/
theorem C2_resolvePath_amended_witness :
    resolvePath (absOfSegs [str "data", str "sessions", str "s1"])
      (str "/data/sessions/s1") (str "../../../etc/passwd") = none :=
  (C2_resolvePath_amended [str "data", str "sessions", str "s1"] (by decide)
    (str "/data/sessions/s1") (str "../../../etc/passwd") (by decide)).1
    (by decide)

/-- C5: any input line containing the literal dangerous pattern `cd /app`
is answered with the security diagnostic and nothing is written to the
PTY, whatever the analyzer would have said — the analysis step is never
even consulted, and the tracked cwd is untouched. -/
theorem C5_dangerous_blocked (root cwd input : Str)
    (analyze : Str → Str → ExecResult)
    (hdang : ∃ a b, input = a ++ dangerousPattern ++ b) :
    handleInput root cwd input analyze =
      { sent := [OutMsg.output securityMsg], ptyWrites := [],
        analysisRan := false, newCwd := cwd } := by
  have hfire := dangerous_check_fires hdang
  simp only [handleInput]
  rw [if_pos hfire]

/-- C5 witness: the spec's own example `cd /app && ls` is blocked even
under an analyzer that always allows. -/
theorem C5_dangerous_blocked_witness :
    handleInput (str "/data/sessions/s1") (str "/data/sessions/s1")
        (str "cd /app && ls") (fun _ _ => ExecResult.okExecute) =
      { sent := [OutMsg.output securityMsg], ptyWrites := [],
        analysisRan := false, newCwd := str "/data/sessions/s1" } :=
  C5_dangerous_blocked _ _ _ _ ⟨[], str " && ls", by decide⟩

/-- C6: when the analysis step throws (here: the File Store listing
fails), `analyzeAndExecuteCommand` catches the exception and answers
`{ ok: true, action: 'execute' }` for every input line — analysis failure
never blocks a command. -/
theorem C6_analysis_error_allows (raw root cwd e : Str) :
    analyzeAndExecuteCommand raw root cwd (Except.error e)
      = ExecResult.okExecute := by
  simp only [analyzeAndExecuteCommand]
  split
  · rfl
  · split
    · rfl
    · rfl

/-- C7, counterexample: a workspace whose File Records all sit under the
single top-level directory `proj/`, with `proj/package.json` present,
where `npm test` from the root is nevertheless blocked — a second nested
`package.json` makes `detectProjectRoot` see two candidate directories
and give up, so the claim fails as stated. -/
theorem C7_counterexample :
    (str "proj/").isPrefixOf (str "proj/package.json") = true
    ∧ (str "proj/").isPrefixOf (str "proj/backend/package.json") = true
    ∧ str "proj/package.json"
        ∈ [str "proj/package.json", str "proj/backend/package.json"]
    ∧ detectProjectRoot [str "proj/package.json", str "proj/backend/package.json"]
        = none
    ∧ analyzeCommandRequirements (str "npm") [str "test"]
        [str "proj/package.json", str "proj/backend/package.json"]
        (str "/data/sessions/s1") (str "/data/sessions/s1")
      = Analysis.block
          (str "package.json not found. npm commands require a package.json file.") := by
  decide

/-- C7 (amended): `npm test` from the workspace root, with every File
Record under the single top-level directory `proj/`, with
`proj/package.json` stored, and with `proj` the only directory holding
any project-indicator file, is classified as a redirect into `proj` (not
a block). -/
theorem C7_redirect_amended (R : List Str) (hR : ∀ s ∈ R, PlainSeg s)
    (dbFiles : List Str)
    (hunder : ∀ fn ∈ dbFiles, (str "proj/").isPrefixOf fn = true)
    (hpj : str "proj/package.json" ∈ dbFiles)
    (honly : ∀ fn ∈ dbFiles, ∀ ind ∈ projectIndicators,
      ('/' :: ind).isSuffixOf fn = true → dirname fn = str "proj") :
    analyzeCommandRequirements (str "npm") [str "test"] dbFiles
      (absOfSegs R) (absOfSegs R)
      = Analysis.redirect (str "proj")
          (str "package.json not found in current directory. Switching to proj/ where package.json exists.") := by
  have hnotmem : str "package.json" ∉ dbFiles := by
    intro hmem
    have h := hunder _ hmem
    exact absurd h (by decide)
  have hdetect := detectProjectRoot_proj hunder hpj honly
  have hresolve := @resolvePath_plain R hR (str "package.json") (by decide)
  have hfe : fileExistsOpt dbFiles
      (resolvePath (absOfSegs R) (absOfSegs R) (str "package.json")) = false := by
    rw [hresolve]
    have hback : backToSlash (str "package.json") = str "package.json" := by decide
    rw [hback]
    simp [fileExistsOpt, hnotmem]
  have hppj : str "proj" ++ '/' :: str "package.json" ∈ dbFiles := by
    have heq : str "proj" ++ '/' :: str "package.json" = str "proj/package.json" := by
      decide
    rw [heq]
    exact hpj
  rw [analyzeCommandRequirements, if_pos (Or.inl rfl), hdetect, analyzeNodeCommand,
    if_neg (by decide), if_pos (by simp [hfe]), dif_pos (by simp)]
  rw [if_pos (by simp [Option.get, fileExistsOpt, hppj])]
  decide

/-- C7 witness: the redirect scenario at a concrete workspace holding
`proj/package.json` and `proj/index.js`. -/
theorem C7_redirect_amended_witness :
    analyzeCommandRequirements (str "npm") [str "test"]
      [str "proj/package.json", str "proj/index.js"]
      (absOfSegs [str "data", str "sessions", str "s1"])
      (absOfSegs [str "data", str "sessions", str "s1"])
      = Analysis.redirect (str "proj")
          (str "package.json not found in current directory. Switching to proj/ where package.json exists.") :=
  C7_redirect_amended [str "data", str "sessions", str "s1"] (by decide)
    [str "proj/package.json", str "proj/index.js"] (by decide) (by decide)
    (by decide)

/-- C9, counterexample: `node --check` is an invocation consisting only
of flags, yet the analyzer blocks it with a file-not-found diagnostic —
the code tests `args[0]` literally against a short flag list instead of
finding the first non-flag argument. -/
theorem C9_counterexample :
    startsDash (str "--check") = true
    ∧ analyzeNodeExecution [str "--check"] (str "/data/sessions/s1")
        (str "/data/sessions/s1") [str "app.js"]
      = Analysis.block
          (str "File not found: --check. Make sure the file exists in your workspace.") := by
  decide

/-- C9 (amended): for a `node` invocation whose FIRST argument is not one
of the exact flags `--version -v version --help -h help --eval -e
--print -p`: when that first argument resolves through the path jail to a
nonempty workspace-relative path that is not a stored File Record, the
command is blocked with a file-not-found diagnostic; and any invocation
whose first argument IS one of those flags passes through unblocked. -/
theorem C9_node_amended (root cwd a : Str) (rest : List Str)
    (dbFiles : List Str) (rel : Str) (b : Str) (rest2 : List Str)
    (ha : nodeNoFileCommands.contains a = false)
    (hres : resolvePath root cwd a = some rel)
    (hrel : rel ≠ [])
    (hmem : dbFiles.contains rel = false)
    (hb : nodeNoFileCommands.contains b = true) :
    analyzeNodeExecution (a :: rest) root cwd dbFiles
      = Analysis.block (str "File not found: " ++ a
          ++ str ". Make sure the file exists in your workspace.")
    ∧ analyzeNodeExecution (b :: rest2) root cwd dbFiles = Analysis.execute := by
  have hanot : a ∉ nodeNoFileCommands := by
    intro h
    have hc : nodeNoFileCommands.contains a = true := List.elem_iff.2 h
    rw [hc] at ha
    cases ha
  have hmemnot : rel ∉ dbFiles := by
    intro h
    have hc : dbFiles.contains rel = true := List.elem_iff.2 h
    rw [hc] at hmem
    cases hmem
  have hbmem : b ∈ nodeNoFileCommands := List.elem_iff.1 hb
  constructor
  · rw [analyzeNodeExecution, if_neg (by simp [hanot]), if_neg (by simp)]
    simp only [List.headD_cons, hres]
    rw [if_pos ⟨hrel, by simp [hmemnot]⟩]
  · rw [analyzeNodeExecution, if_pos ⟨by simp, by simp [hbmem]⟩]

/-- C9 witness: `node missing.js` in a workspace storing only `app.js` is
blocked, while `node --version` passes. -/
theorem C9_node_amended_witness :
    analyzeNodeExecution [str "missing.js"] (str "/data/sessions/s1")
        (str "/data/sessions/s1") [str "app.js"]
      = Analysis.block (str "File not found: " ++ str "missing.js"
          ++ str ". Make sure the file exists in your workspace.")
    ∧ analyzeNodeExecution [str "--version"] (str "/data/sessions/s1")
        (str "/data/sessions/s1") [str "app.js"] = Analysis.execute :=
  C9_node_amended (str "/data/sessions/s1") (str "/data/sessions/s1")
    (str "missing.js") [] [str "app.js"] (str "missing.js")
    (str "--version") [] (by decide) (by decide) (by decide) (by decide)
    (by decide)

/-- C10: every operation updating the tracked cwd — session creation,
`cd` tracking, mediator redirect, and hydration auto-cd — preserves the
invariant that the cwd is an absolute path string having the workspace
root as a string prefix, and the two updates that carry an explicit
prefix check (`cd` tracking and redirect) leave the cwd unchanged when
their target fails the check.  The auto-cd case relies on the File
Records' data-model invariant that no stored relative path climbs out of
the root (no leading `..` segment). -/
theorem C10_cwd_invariant (R : List Str) (hR : ∀ s ∈ R, PlainSeg s)
    (cwd target relDir : Str) (files : List Str) (dirOk : Str → Bool)
    (hcwd : CwdInv (absOfSegs R) cwd)
    (hfiles : ∀ fn ∈ files,
      ((splitSegs fn).filter (· ≠ [])).headD [] ≠ ['.', '.']) :
    CwdInv (absOfSegs R) (absOfSegs R)
    ∧ CwdInv (absOfSegs R) (cdTrackCwd (absOfSegs R) cwd target)
    ∧ ((absOfSegs R).isPrefixOf (candidateAbs cwd target) = false →
        cdTrackCwd (absOfSegs R) cwd target = cwd)
    ∧ CwdInv (absOfSegs R) (redirectCwd (absOfSegs R) cwd relDir)
    ∧ ((absOfSegs R).isPrefixOf (resolveAbs (absOfSegs R) relDir) = false →
        redirectCwd (absOfSegs R) cwd relDir = cwd)
    ∧ CwdInv (absOfSegs R) (autoCdCwd (absOfSegs R) cwd files dirOk) := by
  have hinit : CwdInv (absOfSegs R) (absOfSegs R) :=
    ⟨isAbsolute_absOfSegs R, isPrefixOf_self _⟩
  refine ⟨hinit, ?_, ?_, ?_, ?_, ?_⟩
  · rw [cdTrackCwd]
    by_cases hpre : (absOfSegs R).isPrefixOf (candidateAbs cwd target) = true
    · rw [if_pos hpre]
      exact ⟨isAbsolute_candidateAbs, hpre⟩
    · rw [if_neg hpre]
      exact hcwd
  · intro hpre
    rw [cdTrackCwd, if_neg (by rw [hpre]; simp)]
  · rw [redirectCwd]
    by_cases hpre : (absOfSegs R).isPrefixOf (resolveAbs (absOfSegs R) relDir) = true
    · rw [if_pos hpre]
      exact ⟨isAbsolute_resolveAbs _ _, hpre⟩
    · rw [if_neg hpre]
      exact hcwd
  · intro hpre
    rw [redirectCwd, if_neg (by rw [hpre]; simp)]
  · rw [autoCdCwd]
    rcases hscan : topLevelScan files with ⟨l, b⟩
    rcases l with _ | ⟨only, l'⟩
    · exact hcwd
    · rcases l' with _ | ⟨o2, l''⟩
      · cases b
        · by_cases hd : dirOk (joinPath (absOfSegs R) only) = true
          · simp only [if_pos hd]
            have honly : only ∈ (topLevelScan files).1 := by
              rw [hscan]
              exact List.mem_singleton.2 rfl
            rw [topLevelScan] at honly
            rcases topLevelScan_mem files ([], false) honly with h | h
            · cases h
            · obtain ⟨fn, hfn, r, hparts⟩ := h
              have hmemf : only ∈ (splitSegs fn).filter (· ≠ []) := by
                rw [hparts]
                exact List.mem_cons_self only r
              have hin := List.mem_filter.1 hmemf
              have hne : only ≠ [] := by simpa using hin.2
              have hslash : '/' ∉ only := splitSegs_no_slash fn only hin.1
              have hdd : only ≠ ['.', '.'] := by
                have h := hfiles fn hfn
                rw [hparts] at h
                simpa using h
              by_cases hdot : only = ['.']
              · subst hdot
                rw [joinPath_dot hR]
                exact hinit
              · have hplain : PlainSeg only := ⟨hne, hdot, hdd, hslash⟩
                rw [joinPath_eq_resolveAbs (isAbsolute_of_plain hplain),
                  resolveAbs_plain_seg hR hplain]
                exact ⟨isAbsolute_absOfSegs _, isPrefixOf_absOfSegs_append R only⟩
          · simp only [if_neg hd]
            exact hcwd
        · exact hcwd
      · exact hcwd

/-- C10 witness: with root `/data/sessions/s1`, a relative `cd sub` and
an auto-cd over records under `proj/` both keep the invariant. -/
theorem C10_cwd_invariant_witness :
    CwdInv (absOfSegs [str "data", str "sessions", str "s1"])
      (cdTrackCwd (absOfSegs [str "data", str "sessions", str "s1"])
        (str "/data/sessions/s1") (str "sub"))
    ∧ CwdInv (absOfSegs [str "data", str "sessions", str "s1"])
      (autoCdCwd (absOfSegs [str "data", str "sessions", str "s1"])
        (str "/data/sessions/s1") [str "proj/a.txt"] (fun _ => true)) :=
  ⟨(C10_cwd_invariant [str "data", str "sessions", str "s1"] (by decide)
      (str "/data/sessions/s1") (str "sub") (str "proj")
      [str "proj/a.txt"] (fun _ => true) (by decide) (by decide)).2.1,
    (C10_cwd_invariant [str "data", str "sessions", str "s1"] (by decide)
      (str "/data/sessions/s1") (str "sub") (str "proj")
      [str "proj/a.txt"] (fun _ => true) (by decide) (by decide)).2.2.2.2.2⟩

/-- C3, counterexample: two `init` messages for the same session id on a
fresh server leave one registry entry but two live PTY processes — the
second init overwrites the entry and spawns a fresh PTY without killing
the first, so "exactly one PTY process" fails. -/
theorem C3_counterexample :
    ¬ ((handleInit (handleInit emptyWorld 1 (str "s1") (str "/w/sessions/s1") []
        (fun _ => false)).1 2 (str "s1") (str "/w/sessions/s1") []
        (fun _ => false)).1).alivePtys.length = 1
    ∧ ((handleInit (handleInit emptyWorld 1 (str "s1") (str "/w/sessions/s1") []
        (fun _ => false)).1 2 (str "s1") (str "/w/sessions/s1") []
        (fun _ => false)).1).alivePtys.length = 2
    ∧ ((handleInit (handleInit emptyWorld 1 (str "s1") (str "/w/sessions/s1") []
        (fun _ => false)).1 2 (str "s1") (str "/w/sessions/s1") []
        (fun _ => false)).1).registry.length = 1 := by decide

/-- C3 (amended): two consecutive `init` messages for the same live
session id leave exactly one registry entry for that id, but spawn two
PTYs: the set of live PTY processes grows by two, the first spawned PTY
is still alive (orphaned, never killed), and the registry entry holds the
second PTY's handle. -/
theorem C3_double_init (w : World) (hnd : (w.registry.map Prod.fst).Nodup)
    (wsId1 wsId2 : Nat) (sid root : Str) (files : List Str)
    (dirOk : Str → Bool) :
    countKey ((handleInit (handleInit w wsId1 sid root files dirOk).1 wsId2
        sid root files dirOk).1).registry sid = 1
    ∧ ((handleInit (handleInit w wsId1 sid root files dirOk).1 wsId2
        sid root files dirOk).1).alivePtys.length = w.alivePtys.length + 2
    ∧ w.nextPty ∈ ((handleInit (handleInit w wsId1 sid root files dirOk).1 wsId2
        sid root files dirOk).1).alivePtys
    ∧ (mapGet ((handleInit (handleInit w wsId1 sid root files dirOk).1 wsId2
        sid root files dirOk).1).registry sid).map Session.ptyId
        = some (some (w.nextPty + 1)) := by
  refine ⟨?_, ?_, ?_, ?_⟩
  · simp only [handleInit]
    exact countKey_mapSet_self (keys_mapSet_nodup _ hnd) _
  · simp [handleInit]
  · simp [handleInit]
  · simp [handleInit, mapGet_mapSet]

/-- C3 witness: the general double-init statement at a concrete fresh
world. -/
theorem C3_double_init_witness :
    countKey ((handleInit (handleInit emptyWorld 1 (str "s1")
        (str "/w/sessions/s1") [] (fun _ => false)).1 2 (str "s1")
        (str "/w/sessions/s1") [] (fun _ => false)).1).registry (str "s1") = 1
    ∧ ((handleInit (handleInit emptyWorld 1 (str "s1") (str "/w/sessions/s1")
        [] (fun _ => false)).1 2 (str "s1") (str "/w/sessions/s1") []
        (fun _ => false)).1).alivePtys.length = emptyWorld.alivePtys.length + 2
    ∧ emptyWorld.nextPty ∈ ((handleInit (handleInit emptyWorld 1 (str "s1")
        (str "/w/sessions/s1") [] (fun _ => false)).1 2 (str "s1")
        (str "/w/sessions/s1") [] (fun _ => false)).1).alivePtys
    ∧ (mapGet ((handleInit (handleInit emptyWorld 1 (str "s1")
        (str "/w/sessions/s1") [] (fun _ => false)).1 2 (str "s1")
        (str "/w/sessions/s1") [] (fun _ => false)).1).registry
        (str "s1")).map Session.ptyId = some (some (emptyWorld.nextPty + 1)) :=
  C3_double_init emptyWorld (by decide) 1 2 (str "s1") (str "/w/sessions/s1")
    [] (fun _ => false)

/-- C4, counterexample: a File Record with non-null but empty content is
skipped by hydration — `if (content)` treats the empty string as falsy —
so no byte-identical file appears on disk for it. -/
theorem C4_counterexample :
    (FileRecord.mk (str "empty.txt") (some [])).content ≠ none
    ∧ diskRead (hydrate [FileRecord.mk (str "empty.txt") (some [])] [])
        (str "empty.txt") = none := by decide

/-- C4 (amended): after hydration onto a fresh disk, every File Record
with non-empty content has a byte-identical file at its relative path;
records whose content is null or the empty string are skipped and leave
no file. -/
theorem C4_hydrate_amended (files : List FileRecord)
    (hnd : (files.map FileRecord.filename).Nodup) (r : FileRecord)
    (hr : r ∈ files) :
    (∀ c, r.content = some c → c ≠ [] →
      diskRead (hydrate files []) r.filename = some c)
    ∧ ((r.content = none ∨ r.content = some []) →
      diskRead (hydrate files []) r.filename = none) := by
  constructor
  · intro c hc hcne
    exact hydrate_written files [] r c hnd hr hc hcne
  · intro hc
    exact hydrate_skipped files [] r hnd hr hc rfl

/-- C4 witness: a two-record store hydrates `a.txt` byte-identically. -/
theorem C4_hydrate_amended_witness :
    diskRead (hydrate [FileRecord.mk (str "a.txt") (some (str "hello")),
        FileRecord.mk (str "b.txt") none] []) (str "a.txt")
      = some (str "hello") :=
  (C4_hydrate_amended [FileRecord.mk (str "a.txt") (some (str "hello")),
      FileRecord.mk (str "b.txt") none] (by decide)
      (FileRecord.mk (str "a.txt") (some (str "hello"))) (by decide)).1
    (str "hello") rfl (by decide)

/-- C1: evaluating the code at the failing input.  Session `s1` is
initialized on a fresh server (PTY process 0 spawned); its transport then
closes without any session-delete.  Because BOTH registered close
handlers run — and the second (src/workspace/app.js line 1945) kills the
PTY and deletes the entry — the session is gone from the registry, PTY 0
is dead, and a subsequent `reconnect` with the same id falls back to init
and spawns a brand-new PTY (process 1) instead of reattaching.  This
contradicts the claim (and the first close handler's own stated intent of
keeping the PTY alive for reconnection). -/
theorem C1_close_kills_pty :
    mapGet (onSocketClose (handleInit emptyWorld 1 (str "s1")
        (str "/w/sessions/s1") [] (fun _ => false)).1
        (some (str "s1"))).registry (str "s1") = none
    ∧ (0 : Nat) ∉ (onSocketClose (handleInit emptyWorld 1 (str "s1")
        (str "/w/sessions/s1") [] (fun _ => false)).1
        (some (str "s1"))).alivePtys
    ∧ (mapGet (handleReconnect (onSocketClose (handleInit emptyWorld 1
        (str "s1") (str "/w/sessions/s1") [] (fun _ => false)).1
        (some (str "s1"))) 2 (str "s1") (str "/w/sessions/s1") []
        (fun _ => false)).1.registry (str "s1")).map Session.ptyId
      = some (some 1) := by decide

/-- C8, counterexample: a successful reconnect to a live, ready session
is acknowledged with a `pty-ready` message only — no `session_restored`
message (the type appears nowhere in the implementation), so the claim
fails as stated. -/
theorem C8_counterexample :
    (handleReconnect (handleInit emptyWorld 1 (str "s1")
        (str "/w/sessions/s1") [] (fun _ => false)).1 2 (str "s1")
        (str "/w/sessions/s1") [] (fun _ => false)).2
      = [OutMsg.ptyReady (str "s1")]
    ∧ ((handleReconnect (handleInit emptyWorld 1 (str "s1")
        (str "/w/sessions/s1") [] (fun _ => false)).1 2 (str "s1")
        (str "/w/sessions/s1") [] (fun _ => false)).2.any isSessionRestored)
      = false := by decide

/-- C8 (amended): every successful reconnect to a session that is live in
the registry and ready is acknowledged by exactly one `pty-ready` message
carrying the session id; no `session_restored` message is ever sent, and
the session's transport handle is rebound to the new connection. -/
theorem C8_reconnect_amended (w : World) (wsId : Nat) (sid root : Str)
    (files : List Str) (dirOk : Str → Bool) (s : Session)
    (hs : mapGet w.registry sid = some s) (hready : s.ptyReady = true) :
    (handleReconnect w wsId sid root files dirOk).2 = [OutMsg.ptyReady sid]
    ∧ ((handleReconnect w wsId sid root files dirOk).2.any isSessionRestored)
        = false
    ∧ mapGet (handleReconnect w wsId sid root files dirOk).1.registry sid
        = some { s with wsId := wsId } := by
  simp only [handleReconnect, hs]
  exact ⟨by simp [hready], by simp [hready, isSessionRestored],
    mapGet_mapSet _ _ _⟩

/-- C8 witness: the amended statement at a concrete one-session world. -/
theorem C8_reconnect_amended_witness :
    mapGet (handleReconnect (handleInit emptyWorld 1 (str "s1")
        (str "/w/sessions/s1") [] (fun _ => false)).1 2 (str "s1")
        (str "/w/sessions/s1") [] (fun _ => false)).1.registry (str "s1")
      = some ⟨2, some 0, true, str "/w/sessions/s1"⟩ :=
  (C8_reconnect_amended (handleInit emptyWorld 1 (str "s1")
      (str "/w/sessions/s1") [] (fun _ => false)).1 2 (str "s1")
      (str "/w/sessions/s1") [] (fun _ => false)
      ⟨1, some 0, true, str "/w/sessions/s1"⟩
      (by decide) rfl).2.2

end AIIDE
